import Mathlib

/-!
Verification of the generic indexed min-heap implemented in
`data-structures/heap/heap.c`.

The heap stores (priority, element) pairs contiguously and maintains an
injected hash table mapping each element's byte image to its current slot.
The shallow embedding below models:

  * the pair array `pty_elts` as a `List (P × E)` holding exactly the
    `num_elts` live slots (the C array's unused capacity is never read);
  * the injected hash table as a function `E → Option Nat`, with
    insert-or-overwrite (`ht_insert`) and remove (`ht_remove`) mirroring the
    `hht->insert` / `hht->remove` contract;
  * the caller-supplied comparison `cmp_pty : P → P → Int`, whose documented
    contract (negative iff less, positive iff greater, sign-antisymmetric and
    transitive) is captured by `IsTotalCmp`;
  * the fatal error paths (`fprintf_stderr_exit` on capacity exhaustion) as
    `Option`, `none` meaning the process exits with no state change;
  * element bytes compared by `=` on `E` (`DecidableEq E` plays the role of
    the `cmp_elt` key comparison of the hash table).

The sift loops `heapify_up` / `heapify_down` are compiled to structurally
recursive functions with an explicit iteration bound (`fuel`).  The bound
passed at each call site (`i + 1` for the upward walk whose index strictly
decreases, `num_elts` for the downward walk whose index strictly increases
below `num_elts`) provably exceeds the number of loop iterations, so the
fuel never runs out on any call made by the heap operations.
-/

namespace HeapC

variable {P E : Type} [DecidableEq E] [Inhabited P] [Inhabited E]

/-- Shallow embedding of `heap_t`: current allocated capacity `count`, hard
bound `count_max`, the live (priority, element) pairs, the injected hash
table `ht` and the priority comparison `cmp_pty`. -/
structure heap_t (P E : Type) where
  count_max : Nat
  count : Nat
  pty_elts : List (P × E)
  ht : E → Option Nat
  cmp_pty : P → P → Int

/-- Number of live pairs (`h->num_elts`). -/
def num_elts (h : heap_t P E) : Nat := h.pty_elts.length

/-- The pair stored at slot `i` (contents of `pty_ptr(h, i)` / `elt_ptr(h, i)`). -/
def pair_at (h : heap_t P E) (i : Nat) : P × E := h.pty_elts.getD i default

/-- The priority stored at slot `i`. -/
def pty_at (h : heap_t P E) (i : Nat) : P := (pair_at h i).1

/-- The element stored at slot `i`. -/
def elt_at (h : heap_t P E) (i : Nat) : E := (pair_at h i).2

/-- Parent slot of slot `i` in the implicit binary tree: `(i - 1) / 2`. -/
def parent (i : Nat) : Nat := (i - 1) / 2

/-- Hash-table insert with insert-or-overwrite semantics (`hht->insert`). -/
def ht_insert (m : E → Option Nat) (k : E) (v : Nat) : E → Option Nat :=
  fun e => if e = k then some v else m e

/-- Hash-table removal (`hht->remove`). -/
def ht_remove (m : E → Option Nat) (k : E) : E → Option Nat :=
  fun e => if e = k then none else m e

/-- Embedding of `heap_init`: empty pair array, `count = min_num` slots
reserved, fresh (empty) hash table.  `count_max` is the hard capacity bound
stored in the heap (`h->count_max`). -/
def heap_init (count_max min_num : Nat) (cmp : P → P → Int) : heap_t P E :=
  { count_max := count_max
    count := min_num
    pty_elts := []
    ht := fun _ => none
    cmp_pty := cmp }

/-- Embedding of `swap`: exchanges the pairs at slots `i` and `j` and remaps
both elements in the hash table; returns unchanged when `i == j`. -/
def swap (h : heap_t P E) (i j : Nat) : heap_t P E :=
  if i = j then h
  else
    let pi := pair_at h i
    let pj := pair_at h j
    { h with
      pty_elts := (h.pty_elts.set i pj).set j pi
      ht := ht_insert (ht_insert h.ht pj.2 i) pi.2 j }

/-- Embedding of `half_swap`: copies the pair at slot `s` into slot `t` and
remaps the copied element to `t` in the hash table; no-op when `s == t`. -/
def half_swap (h : heap_t P E) (t s : Nat) : heap_t P E :=
  if s = t then h
  else
    { h with
      pty_elts := h.pty_elts.set t (pair_at h s)
      ht := ht_insert h.ht (elt_at h s) t }

/-- Embedding of `heap_grow`: fatal (`none`) when `count == count_max`;
otherwise the capacity doubles, capped at `count_max`, using the
overflow-free guard `count_max - count < count` of the C source. -/
def heap_grow (h : heap_t P E) : Option (heap_t P E) :=
  if h.count = h.count_max then none
  else if h.count_max - h.count < h.count then some { h with count := h.count_max }
  else some { h with count := 2 * h.count }

/-- The loop of `heapify_up`, carrying the buffered pair `buf` and the hole
index `i`; `fuel` bounds the iterations (the hole index strictly decreases,
so `i + 1` iterations always suffice). -/
def heapify_up_go (fuel : Nat) (h : heap_t P E) (buf : P × E) (i : Nat) :
    heap_t P E × Nat :=
  match fuel with
  | 0 => (h, i)
  | fuel + 1 =>
    if 0 < i then
      let ju := parent i
      if 0 < h.cmp_pty (pty_at h ju) buf.1 then
        heapify_up_go fuel (half_swap h i ju) buf ju
      else (h, i)
    else (h, i)

/-- Embedding of `heapify_up`: buffers the pair at slot `i`, walks up moving
each greater parent down by a half swap, then writes the buffered pair once
at its final slot and remaps its element. -/
def heapify_up (h : heap_t P E) (i : Nat) : heap_t P E :=
  let buf := pair_at h i
  let r := heapify_up_go (i + 1) h buf i
  { r.1 with
    pty_elts := r.1.pty_elts.set r.2 buf
    ht := ht_insert r.1.ht buf.2 r.2 }

/-- The while-loop of `heapify_down` (both-children phase), carrying the
buffered pair and hole index; `fuel` bounds the iterations (the hole index
strictly increases and stays below `num_elts`). -/
def heapify_down_go (fuel : Nat) (h : heap_t P E) (buf : P × E) (i : Nat) :
    heap_t P E × Nat :=
  match fuel with
  | 0 => (h, i)
  | fuel + 1 =>
    if i + 2 ≤ num_elts h - 1 - i then
      let jl := 2 * i + 1
      let jr := 2 * i + 2
      if 0 < h.cmp_pty buf.1 (pty_at h jl) ∧ h.cmp_pty (pty_at h jl) (pty_at h jr) ≤ 0 then
        heapify_down_go fuel (half_swap h i jl) buf jl
      else if 0 < h.cmp_pty buf.1 (pty_at h jr) then
        heapify_down_go fuel (half_swap h i jr) buf jr
      else (h, i)
    else (h, i)

/-- Embedding of `heapify_down`: buffers the pair at slot `i`, walks down
while both children exist half-swapping the smaller child up (left preferred
on ties), handles a final left-only child, then writes the buffered pair
once at its final slot and remaps its element. -/
def heapify_down (h : heap_t P E) (i : Nat) : heap_t P E :=
  let buf := pair_at h i
  let r := heapify_down_go (num_elts h) h buf i
  let r2 :=
    if r.2 + 1 = num_elts r.1 - 1 - r.2 then
      if 0 < r.1.cmp_pty buf.1 (pty_at r.1 (2 * r.2 + 1)) then
        (half_swap r.1 r.2 (2 * r.2 + 1), 2 * r.2 + 1)
      else r
    else r
  { r2.1 with
    pty_elts := r2.1.pty_elts.set r2.2 buf
    ht := ht_insert r2.1.ht buf.2 r2.2 }

/-- Embedding of `heap_push`: grows when `count == num_elts` (fatal `none` at
`count_max`), writes the pair at slot `num_elts`, records its index in the
hash table, increments `num_elts` and sifts the new slot up. -/
def heap_push (h : heap_t P E) (pty : P) (elt : E) : Option (heap_t P E) :=
  let ix := num_elts h
  match (if h.count = ix then heap_grow h else some h) with
  | none => none
  | some h1 =>
    some (heapify_up
      { h1 with
        pty_elts := h1.pty_elts ++ [(pty, elt)]
        ht := ht_insert h1.ht elt ix } ix)

/-- Embedding of `heap_search`: looks the element up in the hash table and,
if present, returns the priority read through `pty_ptr(h, ix)`; the slot
index `ix` stands for the returned pointer. -/
def heap_search (h : heap_t P E) (elt : E) : Option P :=
  match h.ht elt with
  | none => none
  | some ix => some (pty_at h ix)

/-- Embedding of `heap_update`: looks the element's slot up, overwrites the
priority there, then sifts up and (unconditionally, at the original slot)
down.  The C source dereferences the hash-table search result without a
NULL check, so an absent element is undefined behavior, modeled as `none`. -/
def heap_update (h : heap_t P E) (pty : P) (elt : E) : Option (heap_t P E) :=
  match h.ht elt with
  | none => none
  | some ix =>
    let h1 := { h with pty_elts := h.pty_elts.set ix (pty, (pair_at h ix).2) }
    some (heapify_down (heapify_up h1 ix) ix)

/-- Embedding of `heap_pop`: on an empty heap, a silent no-op leaving the
caller's output buffers `pty0`, `elt0` untouched; otherwise copies slot 0
out, swaps slots `0` and `num_elts - 1`, removes the popped element from the
hash table, decrements `num_elts` and, if pairs remain, sifts slot 0 down.
Returns the final heap and the contents of the two output buffers. -/
def heap_pop (h : heap_t P E) (pty0 : P) (elt0 : E) : heap_t P E × P × E :=
  if num_elts h = 0 then (h, pty0, elt0)
  else
    let p := pair_at h 0
    let h1 := swap h 0 (num_elts h - 1)
    let h2 := { h1 with
      ht := ht_remove h1.ht p.2
      pty_elts := h1.pty_elts.take (h1.pty_elts.length - 1) }
    if 0 < num_elts h2 then (heapify_down h2 0, p.1, p.2) else (h2, p.1, p.2)

/-!  Contract of the caller-supplied priority comparison (`cmp_pty`): it
returns a negative value iff its arguments are in strictly increasing order,
a positive value iff strictly decreasing, and zero on ties; equivalently,
its sign is antisymmetric and the induced `≤` is transitive. -/

/-- The documented contract of `cmp_pty`: sign antisymmetry and transitivity
of the induced less-or-equal relation `cmp a b ≤ 0`. -/
structure IsTotalCmp (cmp : P → P → Int) : Prop where
  sign : ∀ a b, 0 < cmp a b ↔ cmp b a < 0
  trans_le : ∀ a b c, cmp a b ≤ 0 → cmp b c ≤ 0 → cmp a c ≤ 0

theorem IsTotalCmp.refl {cmp : P → P → Int} (hc : IsTotalCmp cmp) (a : P) :
    cmp a a = 0 := by
  have := hc.sign a a; omega

theorem IsTotalCmp.le_of_gt {cmp : P → P → Int} (hc : IsTotalCmp cmp) {a b : P}
    (h : 0 < cmp a b) : cmp b a ≤ 0 := by
  have := (hc.sign a b).mp h; omega

theorem IsTotalCmp.le_of_not_gt {cmp : P → P → Int} (hc : IsTotalCmp cmp) {a b : P}
    (h : ¬ 0 < cmp a b) : cmp a b ≤ 0 := by omega

theorem IsTotalCmp.eq_zero_of_le_le {cmp : P → P → Int} (hc : IsTotalCmp cmp) {a b : P}
    (h1 : cmp a b ≤ 0) (h2 : cmp b a ≤ 0) : cmp a b = 0 := by
  have := hc.sign b a; omega

/-!  List auxiliary lemmas about `set`, `getD` and permutations. -/

theorem getD_set_self {l : List α} {i : Nat} {a d : α} (h : i < l.length) :
    (l.set i a).getD i d = a := by
  rw [List.getD_eq_getElem?_getD, List.getElem?_set_self h]; rfl

theorem getD_set_ne {l : List α} {i j : Nat} {a d : α} (h : i ≠ j) :
    (l.set i a).getD j d = l.getD j d := by
  rw [List.getD_eq_getElem?_getD, List.getElem?_set_ne h, ← List.getD_eq_getElem?_getD]

theorem set_getD_self {l : List α} {i : Nat} {d : α} (h : i < l.length) :
    l.set i (l.getD i d) = l := by
  apply List.ext_getElem?
  intro n
  by_cases hn : n = i
  · subst hn
    rw [List.getElem?_set_self h, List.getD_eq_getElem?_getD,
      List.getElem?_eq_getElem h]
    rfl
  · rw [List.getElem?_set_ne (fun he => hn he.symm)]

theorem cons_set_perm {l : List α} {k : Nat} (a b : α) (hk : k < l.length) :
    (a :: l.set k b).Perm (b :: l.set k a) := by
  induction l generalizing k with
  | nil => simp at hk
  | cons hd tl ih =>
    cases k with
    | zero => simpa using List.Perm.swap b a tl
    | succ k =>
      have hk' : k < tl.length := by simpa using hk
      have p1 : (a :: hd :: tl.set k b).Perm (hd :: a :: tl.set k b) :=
        List.Perm.swap hd a _
      have p2 : (hd :: a :: tl.set k b).Perm (hd :: b :: tl.set k a) :=
        List.Perm.cons hd (ih hk')
      have p3 : (hd :: b :: tl.set k a).Perm (b :: hd :: tl.set k a) :=
        List.Perm.swap b hd _
      exact ((p1.trans p2).trans p3)

theorem set_set_perm {l : List α} {i j : Nat} (a b : α) (hi : i < l.length)
    (hj : j < l.length) (hij : i ≠ j) :
    ((l.set i a).set j b).Perm ((l.set i b).set j a) := by
  induction l generalizing i j with
  | nil => simp at hi
  | cons hd tl ih =>
    cases i with
    | zero =>
      cases j with
      | zero => exact absurd rfl hij
      | succ j =>
        have hj' : j < tl.length := by simpa using hj
        simpa using cons_set_perm a b hj'
    | succ i =>
      have hi' : i < tl.length := by simpa using hi
      cases j with
      | zero => simpa using cons_set_perm b a hi'
      | succ j =>
        have hj' : j < tl.length := by simpa using hj
        have hij' : i ≠ j := fun he => hij (by rw [he])
        simpa using List.Perm.cons hd (ih hi' hj' hij')

/-!  Field-preservation and slot-content lemmas for the heap helpers. -/

@[simp] theorem num_elts_half_swap (h : heap_t P E) (t s : Nat) :
    num_elts (half_swap h t s) = num_elts h := by
  unfold half_swap num_elts
  split <;> simp

@[simp] theorem cmp_half_swap (h : heap_t P E) (t s : Nat) :
    (half_swap h t s).cmp_pty = h.cmp_pty := by
  unfold half_swap; split <;> rfl

@[simp] theorem count_half_swap (h : heap_t P E) (t s : Nat) :
    (half_swap h t s).count = h.count := by
  unfold half_swap; split <;> rfl

@[simp] theorem count_max_half_swap (h : heap_t P E) (t s : Nat) :
    (half_swap h t s).count_max = h.count_max := by
  unfold half_swap; split <;> rfl

theorem pair_at_half_swap (h : heap_t P E) {t s : Nat} (hne : s ≠ t)
    (ht : t < num_elts h) (j : Nat) :
    pair_at (half_swap h t s) j = if j = t then pair_at h s else pair_at h j := by
  unfold half_swap
  rw [if_neg hne]
  by_cases hj : j = t
  · subst hj
    have ht' : j < h.pty_elts.length := ht
    simp only [pair_at, if_pos rfl]
    exact getD_set_self ht'
  · simp only [pair_at, if_neg hj]
    exact getD_set_ne (fun he => hj he.symm)

theorem ht_half_swap (h : heap_t P E) {t s : Nat} (hne : s ≠ t) :
    (half_swap h t s).ht = ht_insert h.ht (elt_at h s) t := by
  unfold half_swap
  rw [if_neg hne]

theorem half_swap_pty_elts (h : heap_t P E) {t s : Nat} (hne : s ≠ t) :
    (half_swap h t s).pty_elts = h.pty_elts.set t (pair_at h s) := by
  unfold half_swap
  rw [if_neg hne]

@[simp] theorem ht_insert_self (m : E → Option Nat) (k : E) (v : Nat) :
    ht_insert m k v k = some v := by
  unfold ht_insert; simp

theorem ht_insert_ne (m : E → Option Nat) {k e : E} (v : Nat) (h : e ≠ k) :
    ht_insert m k v e = m e := by
  unfold ht_insert; simp [h]

@[simp] theorem ht_remove_self (m : E → Option Nat) (k : E) :
    ht_remove m k k = none := by
  unfold ht_remove; simp

theorem ht_remove_ne (m : E → Option Nat) {k e : E} (h : e ≠ k) :
    ht_remove m k e = m e := by
  unfold ht_remove; simp [h]

/-!  The heap invariants of the specification. -/

/-- INV-1 (heap order): for every non-root slot `i`, the priority at
`parent(i) = (i-1)/2` compares less than or equal to the priority at `i`. -/
def heap_ordered (h : heap_t P E) : Prop :=
  ∀ i, 0 < i → i < num_elts h → h.cmp_pty (pty_at h (parent i)) (pty_at h i) ≤ 0

/-- INV-2 (index consistency): every live slot's element maps to exactly that
slot, and the hash table holds no entry for any non-resident element. -/
def index_ok (h : heap_t P E) : Prop :=
  (∀ i, i < num_elts h → h.ht (elt_at h i) = some i) ∧
  (∀ e : E, (∀ i, i < num_elts h → elt_at h i ≠ e) → h.ht e = none)

/-- INV-3 (uniqueness): the elements of the live slots are pairwise distinct. -/
def elts_nodup (h : heap_t P E) : Prop :=
  ∀ i j, i < num_elts h → j < num_elts h → i ≠ j → elt_at h i ≠ elt_at h j

/-- Capacity shape: `0 < count` and `num_elts ≤ count ≤ count_max`. -/
def cap_ok (h : heap_t P E) : Prop :=
  0 < h.count ∧ num_elts h ≤ h.count ∧ h.count ≤ h.count_max

/-- The conjunction of all heap invariants. -/
def Inv (h : heap_t P E) : Prop :=
  heap_ordered h ∧ index_ok h ∧ elts_nodup h ∧ cap_ok h

theorem parent_lt {i : Nat} (hi : 0 < i) : parent i < i := by
  unfold parent; omega

theorem parent_eq_iff {i k : Nat} (hk : 0 < k) :
    parent k = i ↔ k = 2 * i + 1 ∨ k = 2 * i + 2 := by
  unfold parent; omega

theorem pty_at_half_swap {h : heap_t P E} {t s : Nat} (hne : s ≠ t)
    (ht : t < num_elts h) (j : Nat) :
    pty_at (half_swap h t s) j = if j = t then pty_at h s else pty_at h j := by
  unfold pty_at; rw [pair_at_half_swap h hne ht j]; split <;> rfl

theorem elt_at_half_swap {h : heap_t P E} {t s : Nat} (hne : s ≠ t)
    (ht : t < num_elts h) (j : Nat) :
    elt_at (half_swap h t s) j = if j = t then elt_at h s else elt_at h j := by
  unfold elt_at; rw [pair_at_half_swap h hne ht j]; split <;> rfl

/-!  Invariant carried by the `heapify_up` loop.  The hole `i` is the slot
whose logical content is the buffered pair `buf`:
`edges` says heap order holds on every edge except the one entering the
hole, `below` says the buffered pair fits above the hole's children, and
`bridge` says the hole's parent already fits above the hole's children. -/

structure UpInv (h : heap_t P E) (buf : P × E) (i : Nat) : Prop where
  hole_lt : i < num_elts h
  edges : ∀ k, 0 < k → k < num_elts h → k ≠ i →
    h.cmp_pty (pty_at h (parent k)) (pty_at h k) ≤ 0
  below : ∀ k, 0 < k → k < num_elts h → parent k = i →
    h.cmp_pty buf.1 (pty_at h k) ≤ 0
  bridge : ∀ k, 0 < k → k < num_elts h → parent k = i → 0 < i →
    h.cmp_pty (pty_at h (parent i)) (pty_at h k) ≤ 0

/-- Invariant on the hash table carried by both sift loops: every non-hole
slot's element maps to its slot, only the buffered element's entry is
unconstrained, no entry exists for non-resident elements, and the non-hole
elements are pairwise distinct and distinct from the buffered element. -/
structure IdxInv (h : heap_t P E) (buf : P × E) (i : Nat) : Prop where
  live : ∀ k, k < num_elts h → k ≠ i → h.ht (elt_at h k) = some k
  dead : ∀ e, (∀ k, k < num_elts h → k ≠ i → elt_at h k ≠ e) → e ≠ buf.2 →
    h.ht e = none
  nod : ∀ k l, k < num_elts h → l < num_elts h → k ≠ l → k ≠ i → l ≠ i →
    elt_at h k ≠ elt_at h l
  nodbuf : ∀ k, k < num_elts h → k ≠ i → elt_at h k ≠ buf.2

theorem upInv_step {h : heap_t P E} {buf : P × E} {i : Nat}
    (hc : IsTotalCmp h.cmp_pty) (inv : UpInv h buf i) (hi : 0 < i)
    (hgt : 0 < h.cmp_pty (pty_at h (parent i)) buf.1) :
    UpInv (half_swap h i (parent i)) buf (parent i) := by
  have hpl : parent i < i := parent_lt hi
  have hne : parent i ≠ i := Nat.ne_of_lt hpl
  have hlen : i < num_elts h := inv.hole_lt
  have hp : ∀ j, pty_at (half_swap h i (parent i)) j =
      if j = i then pty_at h (parent i) else pty_at h j :=
    fun j => pty_at_half_swap hne hlen j
  have hbuf_le : h.cmp_pty buf.1 (pty_at h (parent i)) ≤ 0 := hc.le_of_gt hgt
  refine ⟨?_, ?_, ?_, ?_⟩
  · rw [num_elts_half_swap]; exact lt_trans hpl hlen
  · intro k hk0 hk hkne
    rw [num_elts_half_swap] at hk
    rw [cmp_half_swap, hp, hp]
    by_cases hki : k = i
    · subst hki
      rw [if_pos rfl, if_neg hne]
      simp [hc.refl]
    · rw [if_neg hki]
      by_cases hpk : parent k = i
      · rw [if_pos hpk]
        exact inv.bridge k hk0 hk hpk hi
      · rw [if_neg hpk]
        exact inv.edges k hk0 hk hki
  · intro k hk0 hk hpk
    rw [num_elts_half_swap] at hk
    rw [cmp_half_swap, hp]
    by_cases hki : k = i
    · rw [if_pos hki]
      exact hbuf_le
    · rw [if_neg hki]
      have hedge : h.cmp_pty (pty_at h (parent k)) (pty_at h k) ≤ 0 :=
        inv.edges k hk0 hk hki
      rw [hpk] at hedge
      exact hc.trans_le _ _ _ hbuf_le hedge
  · intro k hk0 hk hpk hj0
    rw [num_elts_half_swap] at hk
    have hggne : parent (parent i) ≠ i :=
      Nat.ne_of_lt (lt_trans (parent_lt hj0) hpl)
    have hedge_ju : h.cmp_pty (pty_at h (parent (parent i))) (pty_at h (parent i)) ≤ 0 :=
      inv.edges (parent i) hj0 (lt_trans hpl hlen) hne
    rw [cmp_half_swap, hp, hp, if_neg hggne]
    by_cases hki : k = i
    · rw [if_pos hki]
      exact hedge_ju
    · rw [if_neg hki]
      have hedge : h.cmp_pty (pty_at h (parent k)) (pty_at h k) ≤ 0 :=
        inv.edges k hk0 hk hki
      rw [hpk] at hedge
      exact hc.trans_le _ _ _ hedge_ju hedge

theorem IdxInv.half_swap_step {h : heap_t P E} {buf : P × E} {t s : Nat}
    (inv : IdxInv h buf t) (hs : s < num_elts h) (ht : t < num_elts h)
    (hne : s ≠ t) :
    IdxInv (half_swap h t s) buf s := by
  have he : ∀ j, elt_at (half_swap h t s) j =
      if j = t then elt_at h s else elt_at h j :=
    fun j => elt_at_half_swap hne ht j
  have hht : (half_swap h t s).ht = ht_insert h.ht (elt_at h s) t :=
    ht_half_swap h hne
  refine ⟨?_, ?_, ?_, ?_⟩
  · intro k hk hks
    rw [num_elts_half_swap] at hk
    rw [hht, he]
    by_cases hkt : k = t
    · rw [if_pos hkt, hkt]
      exact ht_insert_self _ _ _
    · rw [if_neg hkt]
      have : elt_at h k ≠ elt_at h s := inv.nod k s hk hs hks hkt hne
      rw [ht_insert_ne _ _ this]
      exact inv.live k hk hkt
  · intro e hall hbuf
    rw [hht]
    by_cases hes : e = elt_at h s
    · exfalso
      have := hall t (by rw [num_elts_half_swap]; exact ht) hne.symm
      rw [he, if_pos rfl] at this
      exact this hes.symm
    · rw [ht_insert_ne _ _ (fun he' => hes he')]
      refine inv.dead e ?_ hbuf
      intro k hk hkt
      by_cases hks : k = s
      · rw [hks]; exact fun he' => hes he'.symm
      · have := hall k (by rw [num_elts_half_swap]; exact hk) hks
        rw [he, if_neg hkt] at this
        exact this
  · intro k l hk hl hkl hks hls
    rw [num_elts_half_swap] at hk hl
    rw [he, he]
    by_cases hkt : k = t
    · rw [if_pos hkt]
      have hlt' : l ≠ t := fun he' => hkl (hkt.trans he'.symm)
      rw [if_neg hlt']
      exact inv.nod s l hs hl (fun he' => hls he'.symm) hne hlt'
    · rw [if_neg hkt]
      by_cases hlt' : l = t
      · rw [if_pos hlt']
        exact inv.nod k s hk hs hks hkt hne
      · rw [if_neg hlt']
        exact inv.nod k l hk hl hkl hkt hlt'
  · intro k hk hks
    rw [num_elts_half_swap] at hk
    rw [he]
    by_cases hkt : k = t
    · rw [if_pos hkt]
      exact inv.nodbuf s hs hne
    · rw [if_neg hkt]
      exact inv.nodbuf k hk hkt

/-- One half swap of the sift loops permutes the virtual array (the array
with the buffered pair written into the hole). -/
theorem half_swap_set_perm {h : heap_t P E} {t s : Nat} (buf : P × E)
    (hne : s ≠ t) (hs : s < num_elts h) (ht : t < num_elts h) :
    ((half_swap h t s).pty_elts.set s buf).Perm (h.pty_elts.set t buf) := by
  rw [half_swap_pty_elts h hne]
  have hperm := set_set_perm (l := h.pty_elts) (pair_at h s) buf ht hs
    (fun he => hne he.symm)
  refine hperm.trans ?_
  have h1 : pair_at h s = (h.pty_elts.set t buf).getD s default :=
    (getD_set_ne (fun he => hne he.symm)).symm
  rw [h1, set_getD_self (by rw [List.length_set]; exact hs)]

/-- Postcondition of the `heapify_up` loop: administrative fields are
preserved, the exit condition holds at the final hole, the loop invariants
still hold, and the virtual array (hole filled with the buffered pair) is a
permutation of the initial virtual array. -/
def UpOut (h : heap_t P E) (buf : P × E) (i : Nat) (r : heap_t P E × Nat) : Prop :=
  r.1.count_max = h.count_max ∧ r.1.count = h.count ∧ r.1.cmp_pty = h.cmp_pty ∧
  num_elts r.1 = num_elts h ∧
  (r.2 = 0 ∨ r.1.cmp_pty (pty_at r.1 (parent r.2)) buf.1 ≤ 0) ∧
  UpInv r.1 buf r.2 ∧ IdxInv r.1 buf r.2 ∧
  (r.1.pty_elts.set r.2 buf).Perm (h.pty_elts.set i buf)

theorem heapify_up_go_spec :
    ∀ (fuel : Nat) (h : heap_t P E) (buf : P × E) (i : Nat), i < fuel →
      IsTotalCmp h.cmp_pty → UpInv h buf i → IdxInv h buf i →
      UpOut h buf i (heapify_up_go fuel h buf i) := by
  intro fuel
  induction fuel with
  | zero => intro h buf i hlt; omega
  | succ fuel ih =>
    intro h buf i hlt hc hup hidx
    rw [heapify_up_go]
    by_cases hi : 0 < i
    · rw [if_pos hi]
      by_cases hgt : 0 < h.cmp_pty (pty_at h (parent i)) buf.1
      · rw [if_pos hgt]
        have hpl : parent i < i := parent_lt hi
        have hne : parent i ≠ i := Nat.ne_of_lt hpl
        have hfuel : parent i < fuel := by omega
        have hc1 : IsTotalCmp (half_swap h i (parent i)).cmp_pty := by
          rw [cmp_half_swap]; exact hc
        have hup1 := upInv_step hc hup hi hgt
        have hidx1 := IdxInv.half_swap_step hidx
          (lt_trans hpl hup.hole_lt) hup.hole_lt hne
        obtain ⟨o1, o2, o3, o4, o5, o6, o7, o8⟩ := ih _ buf _ hfuel hc1 hup1 hidx1
        refine ⟨?_, ?_, ?_, ?_, o5, o6, o7, ?_⟩
        · rw [o1, count_max_half_swap]
        · rw [o2, count_half_swap]
        · rw [o3, cmp_half_swap]
        · rw [o4, num_elts_half_swap]
        · exact o8.trans
            (half_swap_set_perm buf hne (lt_trans hpl hup.hole_lt) hup.hole_lt)
      · rw [if_neg hgt]
        exact ⟨rfl, rfl, rfl, rfl, Or.inr (hc.le_of_not_gt hgt), hup, hidx,
          List.Perm.refl _⟩
    · rw [if_neg hi]
      exact ⟨rfl, rfl, rfl, rfl, Or.inl (by omega), hup, hidx, List.Perm.refl _⟩

/-- The final write of both sift routines: the buffered pair is stored once
at slot `k` and its element remapped to `k` in the hash table. -/
def finish (h : heap_t P E) (buf : P × E) (k : Nat) : heap_t P E :=
  { h with pty_elts := h.pty_elts.set k buf, ht := ht_insert h.ht buf.2 k }

@[simp] theorem num_elts_finish (h : heap_t P E) (buf : P × E) (k : Nat) :
    num_elts (finish h buf k) = num_elts h := by
  simp [finish, num_elts]

@[simp] theorem cmp_finish (h : heap_t P E) (buf : P × E) (k : Nat) :
    (finish h buf k).cmp_pty = h.cmp_pty := rfl

@[simp] theorem count_finish (h : heap_t P E) (buf : P × E) (k : Nat) :
    (finish h buf k).count = h.count := rfl

@[simp] theorem count_max_finish (h : heap_t P E) (buf : P × E) (k : Nat) :
    (finish h buf k).count_max = h.count_max := rfl

theorem pty_at_finish {h : heap_t P E} {buf : P × E} {k : Nat}
    (hk : k < num_elts h) (x : Nat) :
    pty_at (finish h buf k) x = if x = k then buf.1 else pty_at h x := by
  by_cases hx : x = k
  · rw [if_pos hx]
    subst hx
    show ((h.pty_elts.set x buf).getD x default).1 = buf.1
    rw [getD_set_self hk]
  · rw [if_neg hx]
    show ((h.pty_elts.set k buf).getD x default).1 = (h.pty_elts.getD x default).1
    rw [getD_set_ne (fun he => hx he.symm)]

theorem elt_at_finish {h : heap_t P E} {buf : P × E} {k : Nat}
    (hk : k < num_elts h) (x : Nat) :
    elt_at (finish h buf k) x = if x = k then buf.2 else elt_at h x := by
  by_cases hx : x = k
  · rw [if_pos hx]
    subst hx
    show ((h.pty_elts.set x buf).getD x default).2 = buf.2
    rw [getD_set_self hk]
  · rw [if_neg hx]
    show ((h.pty_elts.set k buf).getD x default).2 = (h.pty_elts.getD x default).2
    rw [getD_set_ne (fun he => hx he.symm)]

/-- Writing the buffered pair at the final hole restores full heap order,
given heap order on all edges not touching the hole, the exit condition at
the hole's parent, and the buffer-below-children facts. -/
theorem finish_order {h : heap_t P E} {buf : P × E} {k : Nat}
    (hk : k < num_elts h)
    (hedges : ∀ j, 0 < j → j < num_elts h → j ≠ k → parent j ≠ k →
      h.cmp_pty (pty_at h (parent j)) (pty_at h j) ≤ 0)
    (hpar : 0 < k → h.cmp_pty (pty_at h (parent k)) buf.1 ≤ 0)
    (hchild : ∀ j, 0 < j → j < num_elts h → parent j = k → j ≠ k →
      h.cmp_pty buf.1 (pty_at h j) ≤ 0) :
    heap_ordered (finish h buf k) := by
  intro j hj0 hjlen
  rw [num_elts_finish] at hjlen
  rw [cmp_finish, pty_at_finish hk, pty_at_finish hk]
  by_cases hjk : j = k
  · subst hjk
    have hpj : parent j ≠ j := Nat.ne_of_lt (parent_lt hj0)
    rw [if_neg hpj, if_pos rfl]
    exact hpar hj0
  · rw [if_neg hjk]
    by_cases hpjk : parent j = k
    · rw [if_pos hpjk]
      exact hchild j hj0 hjlen hpjk hjk
    · rw [if_neg hpjk]
      exact hedges j hj0 hjlen hjk hpjk

/-- Writing the buffered pair at the final hole and remapping its element
restores full index consistency and element distinctness. -/
theorem finish_index {h : heap_t P E} {buf : P × E} {k : Nat}
    (hk : k < num_elts h) (hidx : IdxInv h buf k) :
    index_ok (finish h buf k) ∧ elts_nodup (finish h buf k) := by
  have hht : (finish h buf k).ht = ht_insert h.ht buf.2 k := rfl
  refine ⟨⟨?_, ?_⟩, ?_⟩
  · intro j hj
    rw [num_elts_finish] at hj
    rw [hht, elt_at_finish hk]
    by_cases hjk : j = k
    · rw [if_pos hjk, hjk]
      exact ht_insert_self _ _ _
    · rw [if_neg hjk]
      rw [ht_insert_ne _ _ (hidx.nodbuf j hj hjk)]
      exact hidx.live j hj hjk
  · intro e hall
    have hbuf : e ≠ buf.2 := by
      intro he
      have := hall k (by rw [num_elts_finish]; exact hk)
      rw [elt_at_finish hk, if_pos rfl] at this
      exact this he.symm
    rw [hht, ht_insert_ne _ _ hbuf]
    refine hidx.dead e ?_ hbuf
    intro j hj hjk
    have := hall j (by rw [num_elts_finish]; exact hj)
    rw [elt_at_finish hk, if_neg hjk] at this
    exact this
  · intro j l hj hl hjl
    rw [num_elts_finish] at hj hl
    rw [elt_at_finish hk, elt_at_finish hk]
    by_cases hjk : j = k
    · rw [if_pos hjk]
      have hlk : l ≠ k := fun he => hjl (hjk.trans he.symm)
      rw [if_neg hlk]
      exact fun he => (hidx.nodbuf l hl hlk) he.symm
    · rw [if_neg hjk]
      by_cases hlk : l = k
      · rw [if_pos hlk]
        exact hidx.nodbuf j hj hjk
      · rw [if_neg hlk]
        exact hidx.nod j l hj hl hjl hjk hlk

/-- Full postcondition of `heapify_up` under the loop invariants: fields
preserved, all three invariants restored, and the array permuted. -/
theorem heapify_up_spec {h : heap_t P E} {i : Nat} (hc : IsTotalCmp h.cmp_pty)
    (hup : UpInv h (pair_at h i) i) (hidx : IdxInv h (pair_at h i) i) :
    (heapify_up h i).count_max = h.count_max ∧
    (heapify_up h i).count = h.count ∧
    (heapify_up h i).cmp_pty = h.cmp_pty ∧
    num_elts (heapify_up h i) = num_elts h ∧
    heap_ordered (heapify_up h i) ∧ index_ok (heapify_up h i) ∧
    elts_nodup (heapify_up h i) ∧
    (heapify_up h i).pty_elts.Perm h.pty_elts := by
  obtain ⟨o1, o2, o3, o4, o5, o6, o7, o8⟩ :=
    heapify_up_go_spec (i + 1) h (pair_at h i) i (Nat.lt_succ_self i) hc hup hidx
  set r := heapify_up_go (i + 1) h (pair_at h i) i with hrdef
  have hres : heapify_up h i = finish r.1 (pair_at h i) r.2 := rfl
  have hord : heap_ordered (heapify_up h i) := by
    rw [hres]
    refine finish_order o6.hole_lt ?_ ?_ ?_
    · intro j hj0 hj hjne _
      exact o6.edges j hj0 hj hjne
    · intro hk0
      rcases o5 with h0 | hle
      · omega
      · exact hle
    · intro j hj0 hj hpj _
      exact o6.below j hj0 hj hpj
  have hind := finish_index o6.hole_lt o7
  refine ⟨?_, ?_, ?_, ?_, hord, ?_, ?_, ?_⟩
  · rw [hres, count_max_finish]; exact o1
  · rw [hres, count_finish]; exact o2
  · rw [hres, cmp_finish]; exact o3
  · rw [hres, num_elts_finish]; exact o4
  · rw [hres]; exact hind.1
  · rw [hres]; exact hind.2
  · rw [hres]
    show (r.1.pty_elts.set r.2 (pair_at h i)).Perm h.pty_elts
    refine o8.trans ?_
    have hsg : h.pty_elts.set i (pair_at h i) = h.pty_elts :=
      set_getD_self hup.hole_lt
    rw [hsg]

/-!  Invariant carried by the `heapify_down` loop.  The hole `i` again holds
the buffered pair logically: `edges` says heap order holds on every edge not
leaving the hole, `above` says the buffered pair fits below the hole's
parent, and `bridge` says the hole's parent fits above the hole's
children. -/

structure DownInv (h : heap_t P E) (buf : P × E) (i : Nat) : Prop where
  hole_lt : i < num_elts h
  edges : ∀ k, 0 < k → k < num_elts h → parent k ≠ i →
    h.cmp_pty (pty_at h (parent k)) (pty_at h k) ≤ 0
  above : 0 < i → h.cmp_pty (pty_at h (parent i)) buf.1 ≤ 0
  bridge : ∀ k, 0 < k → k < num_elts h → parent k = i → 0 < i →
    h.cmp_pty (pty_at h (parent i)) (pty_at h k) ≤ 0

theorem downInv_step {h : heap_t P E} {buf : P × E} {i jc : Nat}
    (hc : IsTotalCmp h.cmp_pty) (inv : DownInv h buf i)
    (hjc : jc < num_elts h) (hpjc : parent jc = i) (hij : i < jc)
    (hlt : 0 < h.cmp_pty buf.1 (pty_at h jc))
    (hmin : ∀ k, 0 < k → k < num_elts h → parent k = i →
      h.cmp_pty (pty_at h jc) (pty_at h k) ≤ 0) :
    DownInv (half_swap h i jc) buf jc := by
  have hne : jc ≠ i := Nat.ne_of_gt hij
  have hjc0 : 0 < jc := by omega
  have hp : ∀ j, pty_at (half_swap h i jc) j =
      if j = i then pty_at h jc else pty_at h j :=
    fun j => pty_at_half_swap hne inv.hole_lt j
  refine ⟨?_, ?_, ?_, ?_⟩
  · rw [num_elts_half_swap]; exact hjc
  · intro k hk0 hk hpk
    rw [num_elts_half_swap] at hk
    rw [cmp_half_swap, hp, hp]
    by_cases hki : k = i
    · subst hki
      have hpi : parent k ≠ k := Nat.ne_of_lt (parent_lt hk0)
      rw [if_neg hpi, if_pos rfl]
      exact inv.bridge jc hjc0 hjc hpjc hk0
    · rw [if_neg hki]
      by_cases hpki : parent k = i
      · rw [if_pos hpki]
        exact hmin k hk0 hk hpki
      · rw [if_neg hpki]
        exact inv.edges k hk0 hk hpki
  · intro _
    rw [cmp_half_swap, hp, hpjc, if_pos rfl]
    exact hc.le_of_gt hlt
  · intro k hk0 hk hpk _
    rw [num_elts_half_swap] at hk
    have hkjc : jc < k := by
      have := parent_lt hk0
      omega
    have hki : k ≠ i := by omega
    rw [cmp_half_swap, hp, hp, hpjc, if_pos rfl, if_neg hki]
    have := inv.edges k hk0 hk (by rw [hpk]; omega)
    rw [hpk] at this
    exact this

/-- Postcondition of the `heapify_down` while-loop: fields preserved, the
buffered pair compares at most both children whenever the loop condition
still holds at the final hole, invariants preserved, virtual array permuted. -/
def DownOut (h : heap_t P E) (buf : P × E) (i : Nat) (r : heap_t P E × Nat) : Prop :=
  r.1.count_max = h.count_max ∧ r.1.count = h.count ∧ r.1.cmp_pty = h.cmp_pty ∧
  num_elts r.1 = num_elts h ∧
  (r.2 + 2 ≤ num_elts r.1 - 1 - r.2 →
    r.1.cmp_pty buf.1 (pty_at r.1 (2 * r.2 + 1)) ≤ 0 ∧
    r.1.cmp_pty buf.1 (pty_at r.1 (2 * r.2 + 2)) ≤ 0) ∧
  DownInv r.1 buf r.2 ∧ IdxInv r.1 buf r.2 ∧
  (r.1.pty_elts.set r.2 buf).Perm (h.pty_elts.set i buf)

theorem heapify_down_go_spec :
    ∀ (fuel : Nat) (h : heap_t P E) (buf : P × E) (i : Nat),
      num_elts h ≤ fuel + i →
      IsTotalCmp h.cmp_pty → DownInv h buf i → IdxInv h buf i →
      DownOut h buf i (heapify_down_go fuel h buf i) := by
  intro fuel
  induction fuel with
  | zero =>
    intro h buf i hfuel _ hdown _
    exact absurd hdown.hole_lt (by omega)
  | succ fuel ih =>
    intro h buf i hfuel hc hdown hidx
    rw [heapify_down_go]
    by_cases hcond : i + 2 ≤ num_elts h - 1 - i
    · rw [if_pos hcond]
      have hjr : 2 * i + 2 < num_elts h := by omega
      have hjl : 2 * i + 1 < num_elts h := by omega
      have hpjl : parent (2 * i + 1) = i := by unfold parent; omega
      have hpjr : parent (2 * i + 2) = i := by unfold parent; omega
      have hchild_id : ∀ k, 0 < k → parent k = i → k = 2 * i + 1 ∨ k = 2 * i + 2 :=
        fun k hk0 hpk => (parent_eq_iff hk0).mp hpk
      by_cases hb1 : 0 < h.cmp_pty buf.1 (pty_at h (2 * i + 1)) ∧
          h.cmp_pty (pty_at h (2 * i + 1)) (pty_at h (2 * i + 2)) ≤ 0
      · rw [if_pos hb1]
        have hmin : ∀ k, 0 < k → k < num_elts h → parent k = i →
            h.cmp_pty (pty_at h (2 * i + 1)) (pty_at h k) ≤ 0 := by
          intro k hk0 hk hpk
          rcases hchild_id k hk0 hpk with hkl | hkr
          · rw [hkl]; simp [hc.refl]
          · rw [hkr]; exact hb1.2
        have hdown1 := downInv_step hc hdown hjl hpjl (by omega) hb1.1 hmin
        have hidx1 := IdxInv.half_swap_step hidx hjl hdown.hole_lt (by omega)
        have hc1 : IsTotalCmp (half_swap h i (2 * i + 1)).cmp_pty := by
          rw [cmp_half_swap]; exact hc
        have hfuel1 : num_elts (half_swap h i (2 * i + 1)) ≤ fuel + (2 * i + 1) := by
          rw [num_elts_half_swap]; omega
        obtain ⟨o1, o2, o3, o4, o5, o6, o7, o8⟩ := ih _ buf _ hfuel1 hc1 hdown1 hidx1
        refine ⟨?_, ?_, ?_, ?_, o5, o6, o7, ?_⟩
        · rw [o1, count_max_half_swap]
        · rw [o2, count_half_swap]
        · rw [o3, cmp_half_swap]
        · rw [o4, num_elts_half_swap]
        · exact o8.trans (half_swap_set_perm buf (by omega) hjl hdown.hole_lt)
      · rw [if_neg hb1]
        by_cases hb2 : 0 < h.cmp_pty buf.1 (pty_at h (2 * i + 2))
        · rw [if_pos hb2]
          have hrl : h.cmp_pty (pty_at h (2 * i + 2)) (pty_at h (2 * i + 1)) ≤ 0 := by
            by_cases hA : 0 < h.cmp_pty buf.1 (pty_at h (2 * i + 1))
            · have hB : ¬ h.cmp_pty (pty_at h (2 * i + 1)) (pty_at h (2 * i + 2)) ≤ 0 :=
                fun hB => hb1 ⟨hA, hB⟩
              exact hc.le_of_gt (by omega)
            · exact hc.trans_le _ _ _ (hc.le_of_gt hb2) (hc.le_of_not_gt hA)
          have hmin : ∀ k, 0 < k → k < num_elts h → parent k = i →
              h.cmp_pty (pty_at h (2 * i + 2)) (pty_at h k) ≤ 0 := by
            intro k hk0 hk hpk
            rcases hchild_id k hk0 hpk with hkl | hkr
            · rw [hkl]; exact hrl
            · rw [hkr]; simp [hc.refl]
          have hdown1 := downInv_step hc hdown hjr hpjr (by omega) hb2 hmin
          have hidx1 := IdxInv.half_swap_step hidx hjr hdown.hole_lt (by omega)
          have hc1 : IsTotalCmp (half_swap h i (2 * i + 2)).cmp_pty := by
            rw [cmp_half_swap]; exact hc
          have hfuel1 : num_elts (half_swap h i (2 * i + 2)) ≤ fuel + (2 * i + 2) := by
            rw [num_elts_half_swap]; omega
          obtain ⟨o1, o2, o3, o4, o5, o6, o7, o8⟩ := ih _ buf _ hfuel1 hc1 hdown1 hidx1
          refine ⟨?_, ?_, ?_, ?_, o5, o6, o7, ?_⟩
          · rw [o1, count_max_half_swap]
          · rw [o2, count_half_swap]
          · rw [o3, cmp_half_swap]
          · rw [o4, num_elts_half_swap]
          · exact o8.trans (half_swap_set_perm buf (by omega) hjr hdown.hole_lt)
        · rw [if_neg hb2]
          have hstopr : h.cmp_pty buf.1 (pty_at h (2 * i + 2)) ≤ 0 :=
            hc.le_of_not_gt hb2
          have hstopl : h.cmp_pty buf.1 (pty_at h (2 * i + 1)) ≤ 0 := by
            by_cases hA : 0 < h.cmp_pty buf.1 (pty_at h (2 * i + 1))
            · have hB : ¬ h.cmp_pty (pty_at h (2 * i + 1)) (pty_at h (2 * i + 2)) ≤ 0 :=
                fun hB => hb1 ⟨hA, hB⟩
              have hlr : 0 < h.cmp_pty (pty_at h (2 * i + 1)) (pty_at h (2 * i + 2)) := by
                omega
              have := hc.trans_le _ _ _ hstopr (hc.le_of_gt hlr)
              omega
            · exact hc.le_of_not_gt hA
          exact ⟨rfl, rfl, rfl, rfl, fun _ => ⟨hstopl, hstopr⟩, hdown, hidx,
            List.Perm.refl _⟩
    · rw [if_neg hcond]
      exact ⟨rfl, rfl, rfl, rfl, fun hcond2 => absurd hcond2 hcond, hdown, hidx,
        List.Perm.refl _⟩

/-- Full postcondition of `heapify_down` (while-loop, trailing left-only
child step and final write) under the loop invariants. -/
theorem heapify_down_spec {h : heap_t P E} {i : Nat} (hc : IsTotalCmp h.cmp_pty)
    (hdown : DownInv h (pair_at h i) i) (hidx : IdxInv h (pair_at h i) i) :
    (heapify_down h i).count_max = h.count_max ∧
    (heapify_down h i).count = h.count ∧
    (heapify_down h i).cmp_pty = h.cmp_pty ∧
    num_elts (heapify_down h i) = num_elts h ∧
    heap_ordered (heapify_down h i) ∧ index_ok (heapify_down h i) ∧
    elts_nodup (heapify_down h i) ∧
    (heapify_down h i).pty_elts.Perm h.pty_elts := by
  obtain ⟨o1, o2, o3, o4, o5, o6, o7, o8⟩ :=
    heapify_down_go_spec (num_elts h) h (pair_at h i) i (by omega) hc hdown hidx
  set r := heapify_down_go (num_elts h) h (pair_at h i) i with hrdef
  have hperm0 : (r.1.pty_elts.set r.2 (pair_at h i)).Perm h.pty_elts := by
    refine o8.trans ?_
    have hsg : h.pty_elts.set i (pair_at h i) = h.pty_elts :=
      set_getD_self hdown.hole_lt
    rw [hsg]
  have hunf : heapify_down h i = finish
      (if r.2 + 1 = num_elts r.1 - 1 - r.2 then
        if 0 < r.1.cmp_pty (pair_at h i).1 (pty_at r.1 (2 * r.2 + 1)) then
          (half_swap r.1 r.2 (2 * r.2 + 1), 2 * r.2 + 1)
        else r
      else r).1 (pair_at h i)
      (if r.2 + 1 = num_elts r.1 - 1 - r.2 then
        if 0 < r.1.cmp_pty (pair_at h i).1 (pty_at r.1 (2 * r.2 + 1)) then
          (half_swap r.1 r.2 (2 * r.2 + 1), 2 * r.2 + 1)
        else r
      else r).2 := rfl
  have hcfalse : ¬ r.2 + 2 ≤ num_elts r.1 - 1 - r.2 →
      ∀ j, 0 < j → j < num_elts r.1 → parent j = r.2 → j ≠ r.2 →
      j = 2 * r.2 + 1 ∧ r.2 + 1 = num_elts r.1 - 1 - r.2 := by
    intro hnc j hj0 hj hpj _
    rcases (parent_eq_iff hj0).mp hpj with hl | hr
    · constructor
      · exact hl
      · omega
    · omega
  by_cases htr : r.2 + 1 = num_elts r.1 - 1 - r.2
  · by_cases hgt : 0 < r.1.cmp_pty (pair_at h i).1 (pty_at r.1 (2 * r.2 + 1))
    · -- trailing left-only child step taken
      rw [if_pos htr, if_pos hgt] at hunf
      have hjl : 2 * r.2 + 1 < num_elts r.1 := by omega
      have hpjl : parent (2 * r.2 + 1) = r.2 := by unfold parent; omega
      have hmin : ∀ k, 0 < k → k < num_elts r.1 → parent k = r.2 →
          r.1.cmp_pty (pty_at r.1 (2 * r.2 + 1)) (pty_at r.1 k) ≤ 0 := by
        intro k hk0 hk hpk
        rcases (parent_eq_iff hk0).mp hpk with hl | hr
        · rw [hl]
          have hcr : IsTotalCmp r.1.cmp_pty := by rw [o3]; exact hc
          simp [hcr.refl]
        · omega
      have hcr : IsTotalCmp r.1.cmp_pty := by rw [o3]; exact hc
      have hdown1 := downInv_step hcr o6 hjl hpjl (by omega) hgt hmin
      have hidx1 := IdxInv.half_swap_step o7 hjl o6.hole_lt (by omega)
      have hord : heap_ordered (heapify_down h i) := by
        rw [hunf]
        refine finish_order hdown1.hole_lt ?_ ?_ ?_
        · intro j hj0 hj hjne hpj
          exact hdown1.edges j hj0 hj hpj
        · intro _
          exact hdown1.above (by omega)
        · intro j hj0 hj hpj _
          rw [num_elts_half_swap] at hj
          rcases (parent_eq_iff hj0).mp hpj with hl | hr <;> omega
      have hind := finish_index hdown1.hole_lt hidx1
      have hperm : (heapify_down h i).pty_elts.Perm h.pty_elts := by
        rw [hunf]
        show ((half_swap r.1 r.2 (2 * r.2 + 1)).pty_elts.set (2 * r.2 + 1)
          (pair_at h i)).Perm h.pty_elts
        exact ((half_swap_set_perm _ (by omega) hjl o6.hole_lt).trans hperm0)
      refine ⟨?_, ?_, ?_, ?_, hord, ?_, ?_, hperm⟩
      · rw [hunf, count_max_finish, count_max_half_swap]; exact o1
      · rw [hunf, count_finish, count_half_swap]; exact o2
      · rw [hunf, cmp_finish, cmp_half_swap]; exact o3
      · rw [hunf, num_elts_finish, num_elts_half_swap]; exact o4
      · rw [hunf]; exact hind.1
      · rw [hunf]; exact hind.2
    · -- trailing condition holds but the left child is not smaller
      rw [if_pos htr, if_neg hgt] at hunf
      have hord : heap_ordered (heapify_down h i) := by
        rw [hunf]
        refine finish_order o6.hole_lt ?_ ?_ ?_
        · intro j hj0 hj hjne hpj
          exact o6.edges j hj0 hj hpj
        · intro hk0
          exact o6.above hk0
        · intro j hj0 hj hpj hjne
          have hc2 : ¬ r.2 + 2 ≤ num_elts r.1 - 1 - r.2 := by omega
          obtain ⟨hjeq, _⟩ := hcfalse hc2 j hj0 hj hpj hjne
          rw [hjeq]
          have hcr : IsTotalCmp r.1.cmp_pty := by rw [o3]; exact hc
          exact hcr.le_of_not_gt hgt
      have hind := finish_index o6.hole_lt o7
      refine ⟨?_, ?_, ?_, ?_, hord, ?_, ?_, ?_⟩
      · rw [hunf, count_max_finish]; exact o1
      · rw [hunf, count_finish]; exact o2
      · rw [hunf, cmp_finish]; exact o3
      · rw [hunf, num_elts_finish]; exact o4
      · rw [hunf]; exact hind.1
      · rw [hunf]; exact hind.2
      · rw [hunf]
        show (r.1.pty_elts.set r.2 (pair_at h i)).Perm h.pty_elts
        exact hperm0
  · -- no trailing step
    rw [if_neg htr] at hunf
    have hord : heap_ordered (heapify_down h i) := by
      rw [hunf]
      refine finish_order o6.hole_lt ?_ ?_ ?_
      · intro j hj0 hj hjne hpj
        exact o6.edges j hj0 hj hpj
      · intro hk0
        exact o6.above hk0
      · intro j hj0 hj hpj hjne
        by_cases hc2 : r.2 + 2 ≤ num_elts r.1 - 1 - r.2
        · rcases (parent_eq_iff hj0).mp hpj with hl | hr
          · rw [hl]; exact (o5 hc2).1
          · rw [hr]; exact (o5 hc2).2
        · obtain ⟨_, habs⟩ := hcfalse hc2 j hj0 hj hpj hjne
          exact absurd habs htr
    have hind := finish_index o6.hole_lt o7
    refine ⟨?_, ?_, ?_, ?_, hord, ?_, ?_, ?_⟩
    · rw [hunf, count_max_finish]; exact o1
    · rw [hunf, count_finish]; exact o2
    · rw [hunf, cmp_finish]; exact o3
    · rw [hunf, num_elts_finish]; exact o4
    · rw [hunf]; exact hind.1
    · rw [hunf]; exact hind.2
    · rw [hunf]
      show (r.1.pty_elts.set r.2 (pair_at h i)).Perm h.pty_elts
      exact hperm0

/-!  Specifications of the public heap operations. -/

/-- Closed form of `heap_grow`: fatal at `count_max`, otherwise the capacity
doubles, capped at exactly `count_max`. -/
theorem heap_grow_eq (h : heap_t P E) :
    heap_grow h = if h.count = h.count_max then none
      else some { h with count :=
        if 2 * h.count ≤ h.count_max then 2 * h.count else h.count_max } := by
  unfold heap_grow
  by_cases h1 : h.count = h.count_max
  · rw [if_pos h1, if_pos h1]
  · rw [if_neg h1, if_neg h1]
    by_cases h2 : h.count_max - h.count < h.count
    · rw [if_pos h2, if_neg (by omega)]
    · rw [if_neg h2, if_pos (by omega)]

theorem num_elts_set_pair (h : heap_t P E) (k : Nat) (x : P × E) :
    num_elts { h with pty_elts := h.pty_elts.set k x } = num_elts h := by
  simp [num_elts]

theorem pty_at_set_pair {h : heap_t P E} {k : Nat} (x : P × E)
    (hk : k < num_elts h) (j : Nat) :
    pty_at { h with pty_elts := h.pty_elts.set k x } j =
      if j = k then x.1 else pty_at h j := by
  by_cases hj : j = k
  · rw [if_pos hj]
    subst hj
    show ((h.pty_elts.set j x).getD j default).1 = x.1
    rw [getD_set_self hk]
  · rw [if_neg hj]
    show ((h.pty_elts.set k x).getD j default).1 = (h.pty_elts.getD j default).1
    rw [getD_set_ne (fun he => hj he.symm)]

theorem elt_at_set_pair {h : heap_t P E} {k : Nat} (x : P × E)
    (hk : k < num_elts h) (j : Nat) :
    elt_at { h with pty_elts := h.pty_elts.set k x } j =
      if j = k then x.2 else elt_at h j := by
  by_cases hj : j = k
  · rw [if_pos hj]
    subst hj
    show ((h.pty_elts.set j x).getD j default).2 = x.2
    rw [getD_set_self hk]
  · rw [if_neg hj]
    show ((h.pty_elts.set k x).getD j default).2 = (h.pty_elts.getD j default).2
    rw [getD_set_ne (fun he => hj he.symm)]

theorem getD_append_lt {l1 l2 : List α} {j : Nat} (h : j < l1.length) (d : α) :
    (l1 ++ l2).getD j d = l1.getD j d := by
  rw [List.getD_eq_getElem?_getD, List.getD_eq_getElem?_getD,
    List.getElem?_append, if_pos h]

theorem getD_append_len {l1 : List α} {x d : α} :
    (l1 ++ [x]).getD l1.length d = x := by
  rw [List.getD_eq_getElem?_getD, List.getElem?_append,
    if_neg (by omega), Nat.sub_self]
  rfl

/-- In a heap-ordered heap, the root priority compares at most every live
priority. -/
theorem root_min {h : heap_t P E} (hc : IsTotalCmp h.cmp_pty)
    (hord : heap_ordered h) :
    ∀ k, k < num_elts h → h.cmp_pty (pty_at h 0) (pty_at h k) ≤ 0 := by
  intro k
  induction k using Nat.strong_induction_on with
  | _ k ih =>
    intro hk
    by_cases hk0 : k = 0
    · subst hk0; simp [hc.refl]
    · have h1 : parent k < k := parent_lt (by omega)
      exact hc.trans_le _ _ _ (ih (parent k) h1 (by omega))
        (hord k (by omega) hk)

/-- Specification of a successful `heap_push` on an invariant-satisfying
heap with a fresh element: the invariants are preserved, the pair count
increases by one, and the pair array becomes a permutation of the old array
with the new pair appended. -/
theorem heap_push_spec {h h' : heap_t P E} {p : P} {e : E}
    (hc : IsTotalCmp h.cmp_pty) (hInv : Inv h)
    (hfresh : ∀ i, i < num_elts h → elt_at h i ≠ e)
    (hpush : heap_push h p e = some h') :
    Inv h' ∧ h'.cmp_pty = h.cmp_pty ∧ h'.count_max = h.count_max ∧
    num_elts h' = num_elts h + 1 ∧
    h'.pty_elts.Perm (h.pty_elts ++ [(p, e)]) := by
  obtain ⟨hord, hidx, hnod, hcap⟩ := hInv
  simp only [heap_push] at hpush
  have hcount : ∃ c, (if h.count = num_elts h then heap_grow h else some h) =
      some { h with count := c } ∧ num_elts h + 1 ≤ c ∧ c ≤ h.count_max ∧ 0 < c := by
    by_cases hful : h.count = num_elts h
    · have hlt : h.count ≠ h.count_max := by
        intro heq
        rw [if_pos hful, heap_grow_eq, if_pos heq] at hpush
        exact Option.noConfusion hpush
      have h0 : 0 < h.count := hcap.1
      have hle : h.count ≤ h.count_max := hcap.2.2
      refine ⟨if 2 * h.count ≤ h.count_max then 2 * h.count else h.count_max,
        ?_, ?_, ?_, ?_⟩
      · rw [if_pos hful, heap_grow_eq, if_neg hlt]
      · by_cases h2 : 2 * h.count ≤ h.count_max
        · rw [if_pos h2]; omega
        · rw [if_neg h2]; omega
      · by_cases h2 : 2 * h.count ≤ h.count_max
        · rw [if_pos h2]; omega
        · rw [if_neg h2]
      · by_cases h2 : 2 * h.count ≤ h.count_max
        · rw [if_pos h2]; omega
        · rw [if_neg h2]; omega
    · refine ⟨h.count, ?_, ?_, hcap.2.2, hcap.1⟩
      · rw [if_neg hful]
      · have h1 := hcap.2.1
        omega
  obtain ⟨c, hce, hc1, hc2, hc3⟩ := hcount
  rw [hce] at hpush
  set hmid : heap_t P E :=
    { count_max := h.count_max, count := c,
      pty_elts := h.pty_elts ++ [(p, e)],
      ht := ht_insert h.ht e (num_elts h), cmp_pty := h.cmp_pty } with hmiddef
  have hpush2 : heapify_up hmid (num_elts h) = h' := by
    simpa using hpush
  have hnmid : num_elts hmid = num_elts h + 1 := by
    simp [hmiddef, num_elts]
  have hpmid : ∀ j, j < num_elts h → pty_at hmid j = pty_at h j := by
    intro j hj
    show ((h.pty_elts ++ [(p, e)]).getD j default).1 = _
    rw [getD_append_lt hj]
    rfl
  have hemid : ∀ j, j < num_elts h → elt_at hmid j = elt_at h j := by
    intro j hj
    show ((h.pty_elts ++ [(p, e)]).getD j default).2 = _
    rw [getD_append_lt hj]
    rfl
  have hbuf : pair_at hmid (num_elts h) = (p, e) := by
    show (h.pty_elts ++ [(p, e)]).getD h.pty_elts.length default = (p, e)
    exact getD_append_len
  have hup : UpInv hmid (pair_at hmid (num_elts h)) (num_elts h) := by
    refine ⟨by omega, ?_, ?_, ?_⟩
    · intro k hk0 hk hkne
      rw [hnmid] at hk
      have hk' : k < num_elts h := by omega
      have hpar : parent k < num_elts h := by
        have := parent_lt hk0
        omega
      show hmid.cmp_pty (pty_at hmid (parent k)) (pty_at hmid k) ≤ 0
      rw [hpmid _ hpar, hpmid _ hk']
      exact hord k hk0 hk'
    · intro k hk0 hk hpk
      rw [hnmid] at hk
      rcases (parent_eq_iff hk0).mp hpk with hl | hr <;> omega
    · intro k hk0 hk hpk _
      rw [hnmid] at hk
      rcases (parent_eq_iff hk0).mp hpk with hl | hr <;> omega
  have hix : IdxInv hmid (pair_at hmid (num_elts h)) (num_elts h) := by
    rw [hbuf]
    refine ⟨?_, ?_, ?_, ?_⟩
    · intro k hk hkne
      rw [hnmid] at hk
      have hk' : k < num_elts h := by omega
      rw [hemid _ hk']
      show ht_insert h.ht e (num_elts h) (elt_at h k) = some k
      rw [ht_insert_ne _ _ (hfresh k hk')]
      exact hidx.1 k hk'
    · intro e' hall he'
      show ht_insert h.ht e (num_elts h) e' = none
      rw [ht_insert_ne _ _ he']
      refine hidx.2 e' ?_
      intro k hk'
      have := hall k (by omega) (by omega)
      rw [hemid _ hk'] at this
      exact this
    · intro k l hk hl hkl hkne hlne
      rw [hnmid] at hk hl
      have hk' : k < num_elts h := by omega
      have hl' : l < num_elts h := by omega
      rw [hemid _ hk', hemid _ hl']
      exact hnod k l hk' hl' hkl
    · intro k hk hkne
      rw [hnmid] at hk
      have hk' : k < num_elts h := by omega
      rw [hemid _ hk']
      exact hfresh k hk'
  have hcm : IsTotalCmp hmid.cmp_pty := hc
  obtain ⟨u1, u2, u3, u4, u5, u6, u7, u8⟩ := heapify_up_spec hcm hup hix
  rw [hpush2] at u1 u2 u3 u4 u5 u6 u7 u8
  refine ⟨⟨u5, u6, u7, ?_⟩, ?_, ?_, ?_, ?_⟩
  · refine ⟨?_, ?_, ?_⟩
    · rw [u2]; exact hc3
    · rw [u2, u4, hnmid]; exact hc1
    · rw [u2, u1]; exact hc2
  · exact u3
  · exact u1
  · rw [u4, hnmid]
  · exact u8

theorem swap_self (h : heap_t P E) (i : Nat) : swap h i i = h := by
  unfold swap; rw [if_pos rfl]

theorem swap_eq {h : heap_t P E} {i j : Nat} (hij : i ≠ j) :
    swap h i j = { h with
      pty_elts := (h.pty_elts.set i (pair_at h j)).set j (pair_at h i)
      ht := ht_insert (ht_insert h.ht (pair_at h j).2 i) (pair_at h i).2 j } := by
  unfold swap; rw [if_neg hij]

theorem getD_take {l : List α} {n j : Nat} (h : j < n) (d : α) :
    (l.take n).getD j d = l.getD j d := by
  rw [List.getD_eq_getElem?_getD, List.getD_eq_getElem?_getD, List.getElem?_take,
    if_pos h]

/-- Moving the last pair onto the popped root is, up to permutation,
removal of the head: the shortened array with the old last pair written at
slot 0 permutes the tail of the original array. -/
theorem last_take_perm {l : List α} (d : α) (h2 : 2 ≤ l.length) :
    ((l.take (l.length - 1)).set 0 (l.getD (l.length - 1) d)).Perm l.tail := by
  cases l with
  | nil => simp at h2
  | cons hd t =>
    have ht : t ≠ [] := by
      intro he
      rw [he] at h2
      simp at h2
    have hlen : (hd :: t).length - 1 = t.length := by simp
    rw [hlen, List.tail_cons]
    have hlt : t.length = (t.length - 1) + 1 := by
      cases t with
      | nil => exact absurd rfl ht
      | cons a b => simp
    rw [hlt, List.take_succ_cons, ← hlt]
    have hgd : (hd :: t).getD t.length d = t.getD (t.length - 1) d := by
      rw [hlt, List.getD_cons_succ, ← hlt]
    rw [hgd]
    show (t.getD (t.length - 1) d :: t.take (t.length - 1)).Perm t
    have hdl : t.take (t.length - 1) = t.dropLast := (List.dropLast_eq_take t).symm
    have hgl : t.getD (t.length - 1) d = t.getLast ht := by
      rw [List.getD_eq_getElem t d (by
        have : 0 < t.length := List.length_pos.mpr ht
        omega), List.getLast_eq_getElem]
    rw [hdl, hgl]
    have := List.perm_append_singleton (t.getLast ht) t.dropLast
    refine List.Perm.trans this.symm ?_
    rw [List.dropLast_append_getLast ht]

/-- For a nonempty list, the head consed on the tail is the list. -/
theorem getD_zero_cons_tail {l : List α} (d : α) (h1 : 0 < l.length) :
    l.getD 0 d :: l.tail = l := by
  cases l with
  | nil => simp at h1
  | cons hd t => rw [List.getD_cons_zero, List.tail_cons]

/-- Specification of `heap_pop` on a nonempty invariant-satisfying heap:
the output buffers receive the root pair, the invariants are preserved, the
capacity fields are untouched, and the remaining pairs are a permutation of
the original array minus the root pair. -/
theorem heap_pop_spec {h : heap_t P E} (hc : IsTotalCmp h.cmp_pty) (hInv : Inv h)
    (hpos : 0 < num_elts h) (pty0 : P) (elt0 : E) :
    (heap_pop h pty0 elt0).2.1 = pty_at h 0 ∧
    (heap_pop h pty0 elt0).2.2 = elt_at h 0 ∧
    Inv (heap_pop h pty0 elt0).1 ∧
    (heap_pop h pty0 elt0).1.cmp_pty = h.cmp_pty ∧
    (heap_pop h pty0 elt0).1.count_max = h.count_max ∧
    (heap_pop h pty0 elt0).1.count = h.count ∧
    num_elts (heap_pop h pty0 elt0).1 = num_elts h - 1 ∧
    (pair_at h 0 :: (heap_pop h pty0 elt0).1.pty_elts).Perm h.pty_elts := by
  obtain ⟨hord, hidx, hnod, hcap⟩ := hInv
  have hne0 : ¬ num_elts h = 0 := by omega
  set H2 : heap_t P E := { swap h 0 (num_elts h - 1) with
    ht := ht_remove (swap h 0 (num_elts h - 1)).ht (pair_at h 0).2
    pty_elts := (swap h 0 (num_elts h - 1)).pty_elts.take
      ((swap h 0 (num_elts h - 1)).pty_elts.length - 1) } with hH2
  have hpopeq0 : heap_pop h pty0 elt0 =
      if 0 < num_elts H2 then (heapify_down H2 0, (pair_at h 0).1, (pair_at h 0).2)
      else (H2, (pair_at h 0).1, (pair_at h 0).2) := by
    unfold heap_pop
    rw [if_neg hne0]
  have hcount' : H2.count = h.count ∧ H2.count_max = h.count_max ∧
      H2.cmp_pty = h.cmp_pty := by
    rw [hH2]
    by_cases hij : (0 : Nat) = num_elts h - 1
    · rw [← hij, swap_self]
      exact ⟨rfl, rfl, rfl⟩
    · rw [swap_eq hij]
      exact ⟨rfl, rfl, rfl⟩
  by_cases h1 : num_elts h = 1
  · -- singleton heap: the new array is empty and no sift happens
    have hij : (0 : Nat) = num_elts h - 1 := by omega
    have hpairs : H2.pty_elts = [] := by
      rw [hH2, ← hij, swap_self]
      show h.pty_elts.take (h.pty_elts.length - 1) = []
      have hl1 : h.pty_elts.length = 1 := h1
      rw [hl1]
      simp
    have hn2 : num_elts H2 = 0 := by
      show H2.pty_elts.length = 0
      rw [hpairs]
      rfl
    have hht2 : H2.ht = ht_remove h.ht (pair_at h 0).2 := by
      rw [hH2, ← hij, swap_self]
    have hfst : (heap_pop h pty0 elt0).1 = H2 := by
      rw [hpopeq0, if_neg (by omega)]
    have hsnd1 : (heap_pop h pty0 elt0).2.1 = (pair_at h 0).1 := by
      rw [hpopeq0, if_neg (by omega)]
    have hsnd2 : (heap_pop h pty0 elt0).2.2 = (pair_at h 0).2 := by
      rw [hpopeq0, if_neg (by omega)]
    rw [hfst, hsnd1, hsnd2]
    refine ⟨rfl, rfl, ⟨?_, ⟨?_, ?_⟩, ?_, ?_⟩, hcount'.2.2, hcount'.2.1,
      hcount'.1, ?_, ?_⟩
    · intro i hi0 hi
      rw [hn2] at hi
      omega
    · intro i hi
      rw [hn2] at hi
      omega
    · intro e' hall
      rw [hht2]
      by_cases he : e' = (pair_at h 0).2
      · rw [he]; exact ht_remove_self _ _
      · rw [ht_remove_ne _ he]
        refine hidx.2 e' ?_
        intro i hi
        have hi0 : i = 0 := by omega
        rw [hi0]
        exact fun hcontra => he hcontra.symm
    · intro i j hi hj
      rw [hn2] at hi
      omega
    · refine ⟨?_, ?_, ?_⟩
      · rw [hcount'.1]; exact hcap.1
      · rw [hn2, hcount'.1]; omega
      · rw [hcount'.1, hcount'.2.1]; exact hcap.2.2
    · rw [hn2]
      omega
    · rw [hpairs]
      have hht : h.pty_elts.getD 0 default :: h.pty_elts.tail = h.pty_elts :=
        getD_zero_cons_tail default hpos
      have htl : h.pty_elts.tail = [] := by
        cases hl : h.pty_elts with
        | nil => rfl
        | cons a t =>
          have hlt : t.length = 0 := by
            have h1' := h1
            unfold num_elts at h1'
            rw [hl] at h1'
            simpa using h1'
          rw [List.tail_cons, List.length_eq_zero.mp hlt]
      show (pair_at h 0 :: []).Perm h.pty_elts
      rw [← hht, htl]
      exact List.Perm.refl _
  · -- at least two pairs: swap, shrink, heapify down from the root
    have hn2 : 2 ≤ num_elts h := by omega
    have hij : (0 : Nat) ≠ num_elts h - 1 := by omega
    set pj := pair_at h (num_elts h - 1) with hpj
    set pi := pair_at h 0 with hpi
    have hpairs : H2.pty_elts = (h.pty_elts.take (num_elts h - 1)).set 0 pj := by
      rw [hH2]
      show (swap h 0 (num_elts h - 1)).pty_elts.take
        ((swap h 0 (num_elts h - 1)).pty_elts.length - 1) = _
      rw [swap_eq hij]
      show (((h.pty_elts.set 0 pj).set (num_elts h - 1) pi).take
        (((h.pty_elts.set 0 pj).set (num_elts h - 1) pi).length - 1)) = _
      have hlen : ((h.pty_elts.set 0 pj).set (num_elts h - 1) pi).length =
          num_elts h := by
        simp [num_elts]
      rw [hlen, List.set_take, List.set_take,
        List.set_eq_of_length_le (by
          rw [List.length_set, List.length_take]
          omega)]
    have hht2 : H2.ht =
        ht_remove (ht_insert (ht_insert h.ht pj.2 0) pi.2 (num_elts h - 1)) pi.2 := by
      rw [hH2]
      show ht_remove (swap h 0 (num_elts h - 1)).ht (pair_at h 0).2 = _
      rw [swap_eq hij]
    have hnH2 : num_elts H2 = num_elts h - 1 := by
      show H2.pty_elts.length = _
      rw [hpairs, List.length_set, List.length_take]
      have : num_elts h = h.pty_elts.length := rfl
      omega
    have hpair2 : ∀ j, j < num_elts h - 1 →
        pair_at H2 j = if j = 0 then pj else pair_at h j := by
      intro j hj
      show H2.pty_elts.getD j default = _
      rw [hpairs]
      by_cases hj0 : j = 0
      · rw [if_pos hj0, hj0]
        exact getD_set_self (by
          rw [List.length_take]
          have : num_elts h = h.pty_elts.length := rfl
          omega)
      · rw [if_neg hj0, getD_set_ne (fun he => hj0 he.symm), getD_take hj]
        rfl
    have hbuf : pair_at H2 0 = pj := by
      rw [hpair2 0 (by omega), if_pos rfl]
    have hpty2 : ∀ j, j < num_elts h - 1 →
        pty_at H2 j = if j = 0 then pj.1 else pty_at h j := by
      intro j hj
      show (pair_at H2 j).1 = _
      rw [hpair2 j hj]
      by_cases hj0 : j = 0
      · rw [if_pos hj0, if_pos hj0]
      · rw [if_neg hj0, if_neg hj0]
        rfl
    have helt2 : ∀ j, j < num_elts h - 1 →
        elt_at H2 j = if j = 0 then pj.2 else elt_at h j := by
      intro j hj
      show (pair_at H2 j).2 = _
      rw [hpair2 j hj]
      by_cases hj0 : j = 0
      · rw [if_pos hj0, if_pos hj0]
      · rw [if_neg hj0, if_neg hj0]
        rfl
    have hcH2 : IsTotalCmp H2.cmp_pty := by
      rw [hcount'.2.2]
      exact hc
    have hdown : DownInv H2 (pair_at H2 0) 0 := by
      refine ⟨by omega, ?_, ?_, ?_⟩
      · intro k hk0 hk hpk
        rw [hnH2] at hk
        have hkp : parent k < k := parent_lt hk0
        rw [hcount'.2.2, hpty2 k hk, hpty2 (parent k) (by omega),
          if_neg hpk, if_neg (show ¬ k = 0 by omega)]
        exact hord k hk0 (by omega)
      · intro hcon
        omega
      · intro k hk0 hk hpk hcon
        omega
    have hidx2 : IdxInv H2 (pair_at H2 0) 0 := by
      rw [hbuf]
      refine ⟨?_, ?_, ?_, ?_⟩
      · intro k hk hk0
        rw [hnH2] at hk
        rw [helt2 k hk, if_neg hk0, hht2]
        have hknl : elt_at h k ≠ pi.2 := hnod k 0 (by omega) hpos hk0
        have hknj : elt_at h k ≠ pj.2 := hnod k (num_elts h - 1) (by omega)
          (by omega) (by omega)
        rw [ht_remove_ne _ hknl, ht_insert_ne _ _ hknl, ht_insert_ne _ _ hknj]
        exact hidx.1 k (by omega)
      · intro e' hall hbuf'
        rw [hht2]
        by_cases hepi : e' = pi.2
        · rw [hepi]
          exact ht_remove_self _ _
        · rw [ht_remove_ne _ hepi, ht_insert_ne _ _ hepi, ht_insert_ne _ _ hbuf']
          refine hidx.2 e' ?_
          intro k hk
          by_cases hk0 : k = 0
          · rw [hk0]
            exact fun hcontra => hepi hcontra.symm
          · by_cases hklast : k = num_elts h - 1
            · rw [hklast]
              exact fun hcontra => hbuf' hcontra.symm
            · have := hall k (by omega) hk0
              rw [helt2 k (by omega), if_neg hk0] at this
              exact this
      · intro k l hk hl hkl hk0 hl0
        rw [hnH2] at hk hl
        rw [helt2 k hk, helt2 l hl, if_neg hk0, if_neg hl0]
        exact hnod k l (by omega) (by omega) hkl
      · intro k hk hk0
        rw [hnH2] at hk
        rw [helt2 k hk, if_neg hk0]
        exact hnod k (num_elts h - 1) (by omega) (by omega) (by omega)
    obtain ⟨d1, d2, d3, d4, d5, d6, d7, d8⟩ := heapify_down_spec hcH2 hdown hidx2
    have hfst : (heap_pop h pty0 elt0).1 = heapify_down H2 0 := by
      rw [hpopeq0, if_pos (by omega)]
    have hsnd1 : (heap_pop h pty0 elt0).2.1 = (pair_at h 0).1 := by
      rw [hpopeq0, if_pos (by omega)]
    have hsnd2 : (heap_pop h pty0 elt0).2.2 = (pair_at h 0).2 := by
      rw [hpopeq0, if_pos (by omega)]
    rw [hfst, hsnd1, hsnd2]
    refine ⟨rfl, rfl, ⟨d5, d6, d7, ?_⟩, ?_, ?_, ?_, ?_, ?_⟩
    · refine ⟨?_, ?_, ?_⟩
      · rw [d2, hcount'.1]
        exact hcap.1
      · rw [d2, d4, hnH2, hcount'.1]
        have := hcap.2.1
        omega
      · rw [d2, hcount'.1, d1, hcount'.2.1]
        exact hcap.2.2
    · rw [d3, hcount'.2.2]
    · rw [d1, hcount'.2.1]
    · rw [d2, hcount'.1]
    · rw [d4, hnH2]
    · show (pi :: (heapify_down H2 0).pty_elts).Perm h.pty_elts
      refine List.Perm.trans (List.Perm.cons pi d8) ?_
      have hp1 : H2.pty_elts.Perm h.pty_elts.tail := by
        rw [hpairs]
        have := last_take_perm (l := h.pty_elts) default (by
          have : num_elts h = h.pty_elts.length := rfl
          omega)
        have hlen' : num_elts h - 1 = h.pty_elts.length - 1 := rfl
        rw [hlen']
        exact this
      refine List.Perm.trans (List.Perm.cons pi hp1) ?_
      have := getD_zero_cons_tail (l := h.pty_elts) default hpos
      rw [hpi]
      show (h.pty_elts.getD 0 default :: h.pty_elts.tail).Perm h.pty_elts
      rw [this]

/-- Specification of a successful `heap_update` on an invariant-satisfying
heap: the element is resident at some slot `ix`, the invariants are
preserved, the counts and capacity are untouched, and the pair array becomes
a permutation of the old array with only `ix`'s pair replaced by the new
(priority, element) pair.  In particular the unconditional `heapify_down` at
the original slot after the upward sift never corrupts any pair. -/
theorem heap_update_spec {h h' : heap_t P E} {p : P} {e : E}
    (hc : IsTotalCmp h.cmp_pty) (hInv : Inv h)
    (hupd : heap_update h p e = some h') :
    ∃ ix, ix < num_elts h ∧ elt_at h ix = e ∧ h.ht e = some ix ∧
      Inv h' ∧ h'.cmp_pty = h.cmp_pty ∧ h'.count_max = h.count_max ∧
      h'.count = h.count ∧ num_elts h' = num_elts h ∧
      h'.pty_elts.Perm (h.pty_elts.set ix (p, e)) := by
  obtain ⟨hord, hidx, hnod, hcap⟩ := hInv
  simp only [heap_update] at hupd
  cases hht : h.ht e with
  | none =>
    rw [hht] at hupd
    exact Option.noConfusion hupd
  | some ix =>
    rw [hht] at hupd
    have hmem : ∃ k, k < num_elts h ∧ elt_at h k = e := by
      by_contra hno
      push_neg at hno
      have hnone : h.ht e = none := hidx.2 e (fun k hk => hno k hk)
      rw [hht] at hnone
      exact Option.noConfusion hnone
    obtain ⟨k, hk, hke0⟩ := hmem
    have hik : ix = k := by
      have hlk := hidx.1 k hk
      rw [hke0, hht] at hlk
      exact Option.some.inj hlk
    have hix : ix < num_elts h := by rw [hik]; exact hk
    have hke : elt_at h ix = e := by rw [hik]; exact hke0
    set H1 : heap_t P E :=
      { h with pty_elts := h.pty_elts.set ix (p, (pair_at h ix).2) } with hH1
    have hres : heapify_down (heapify_up H1 ix) ix = h' := by
      rw [← Option.some.injEq]
      exact hupd
    have hH1n : num_elts H1 = num_elts h := by
      rw [hH1]
      exact num_elts_set_pair h ix _
    have hH1cmp : H1.cmp_pty = h.cmp_pty := rfl
    have hH1ht : H1.ht = h.ht := rfl
    have hcH1 : IsTotalCmp H1.cmp_pty := hc
    have hpty1 : ∀ j, pty_at H1 j = if j = ix then p else pty_at h j := by
      intro j
      have h0 := pty_at_set_pair (h := h) ((p, (pair_at h ix).2)) hix j
      rw [← hH1] at h0
      simpa using h0
    have helt1 : ∀ j, elt_at H1 j = if j = ix then e else elt_at h j := by
      intro j
      have h0 := elt_at_set_pair (h := h) ((p, (pair_at h ix).2)) hix j
      rw [← hH1] at h0
      rw [h0]
      by_cases hj : j = ix
      · rw [if_pos hj, if_pos hj]
        exact hke
      · rw [if_neg hj, if_neg hj]
    have hbuf1 : pair_at H1 ix = (p, e) := by
      show H1.pty_elts.getD ix default = _
      have hp1 : H1.pty_elts = h.pty_elts.set ix (p, (pair_at h ix).2) := by
        rw [hH1]
      rw [hp1, getD_set_self hix]
      have : (pair_at h ix).2 = e := hke
      rw [this]
    have hH1pelts : H1.pty_elts = h.pty_elts.set ix (p, e) := by
      rw [hH1]
      show h.pty_elts.set ix (p, (pair_at h ix).2) = _
      have : (pair_at h ix).2 = e := hke
      rw [this]
    have hidx1 : IdxInv H1 (p, e) ix := by
      refine ⟨?_, ?_, ?_, ?_⟩
      · intro j hj hjne
        rw [hH1n] at hj
        rw [helt1, if_neg hjne]
        exact hidx.1 j hj
      · intro e' hall he'
        refine hidx.2 e' ?_
        intro j hj
        by_cases hjx : j = ix
        · rw [hjx, hke]
          exact fun hcontra => he' hcontra.symm
        · have := hall j (by rw [hH1n]; exact hj) hjx
          rw [helt1, if_neg hjx] at this
          exact this
      · intro j l hj hl hjl hjx hlx
        rw [hH1n] at hj hl
        rw [helt1, helt1, if_neg hjx, if_neg hlx]
        exact hnod j l hj hl hjl
      · intro j hj hjx
        rw [hH1n] at hj
        rw [helt1, if_neg hjx]
        show elt_at h j ≠ e
        rw [← hke]
        exact hnod j ix hj hix hjx
    have hcommon : num_elts (heapify_up H1 ix) = num_elts h ∧
        (heapify_up H1 ix).cmp_pty = h.cmp_pty ∧
        (heapify_up H1 ix).count = h.count ∧
        (heapify_up H1 ix).count_max = h.count_max ∧
        DownInv (heapify_up H1 ix) (pair_at (heapify_up H1 ix) ix) ix ∧
        IdxInv (heapify_up H1 ix) (pair_at (heapify_up H1 ix) ix) ix ∧
        (heapify_up H1 ix).pty_elts.Perm (h.pty_elts.set ix (p, e)) := by
      by_cases hmove : 0 < ix ∧ 0 < h.cmp_pty (pty_at h (parent ix)) p
      · -- the new priority moves up; run the full upward-sift specification
        have hchain : ∀ j, 0 < j → j < num_elts h → parent j = ix →
            h.cmp_pty p (pty_at h j) ≤ 0 := by
          intro j hj0 hj hpj
          have le1 : h.cmp_pty p (pty_at h (parent ix)) ≤ 0 := hc.le_of_gt hmove.2
          have le2 : h.cmp_pty (pty_at h (parent ix)) (pty_at h ix) ≤ 0 :=
            hord ix hmove.1 hix
          have le3 : h.cmp_pty (pty_at h ix) (pty_at h j) ≤ 0 := by
            have := hord j hj0 hj
            rw [hpj] at this
            exact this
          exact hc.trans_le _ _ _ (hc.trans_le _ _ _ le1 le2) le3
        have hup1 : UpInv H1 (pair_at H1 ix) ix := by
          rw [hbuf1]
          refine ⟨by rw [hH1n]; exact hix, ?_, ?_, ?_⟩
          · intro j hj0 hj hjne
            rw [hH1n] at hj
            have hpj : parent j < j := parent_lt hj0
            show H1.cmp_pty (pty_at H1 (parent j)) (pty_at H1 j) ≤ 0
            rw [hH1cmp, hpty1, hpty1, if_neg hjne]
            by_cases hpjx : parent j = ix
            · rw [if_pos hpjx]
              exact hchain j hj0 hj hpjx
            · rw [if_neg hpjx]
              exact hord j hj0 hj
          · intro j hj0 hj hpj
            rw [hH1n] at hj
            have hjne : j ≠ ix := by
              intro he'
              rw [he'] at hpj
              have := parent_lt hj0
              rw [he'] at this
              omega
            show H1.cmp_pty p (pty_at H1 j) ≤ 0
            rw [hH1cmp, hpty1, if_neg hjne]
            exact hchain j hj0 hj hpj
          · intro j hj0 hj hpj hix0
            rw [hH1n] at hj
            have hjne : j ≠ ix := by
              intro he'
              rw [he'] at hpj
              have := parent_lt hj0
              rw [he'] at this
              omega
            have hpne : parent ix ≠ ix := Nat.ne_of_lt (parent_lt hix0)
            show H1.cmp_pty (pty_at H1 (parent ix)) (pty_at H1 j) ≤ 0
            rw [hH1cmp, hpty1, hpty1, if_neg hjne, if_neg hpne]
            have le2 : h.cmp_pty (pty_at h (parent ix)) (pty_at h ix) ≤ 0 :=
              hord ix hix0 hix
            have le3 : h.cmp_pty (pty_at h ix) (pty_at h j) ≤ 0 := by
              have := hord j hj0 hj
              rw [hpj] at this
              exact this
            exact hc.trans_le _ _ _ le2 le3
        have hidx1' : IdxInv H1 (pair_at H1 ix) ix := by
          rw [hbuf1]
          exact hidx1
        obtain ⟨u1, u2, u3, u4, u5, u6, u7, u8⟩ := heapify_up_spec hcH1 hup1 hidx1'
        have hcU : IsTotalCmp (heapify_up H1 ix).cmp_pty := by
          rw [u3, hH1cmp]
          exact hc
        have hnU : num_elts (heapify_up H1 ix) = num_elts h := by
          rw [u4, hH1n]
        refine ⟨hnU, by rw [u3, hH1cmp], by rw [u2], by rw [u1], ?_, ?_, ?_⟩
        · refine ⟨by rw [hnU]; exact hix, ?_, ?_, ?_⟩
          · intro j hj0 hj _
            exact u5 j hj0 hj
          · intro hix0
            exact u5 ix hix0 (by rw [hnU]; exact hix)
          · intro j hj0 hj hpj hix0
            have le2 := u5 ix hix0 (by rw [hnU]; exact hix)
            have le3 := u5 j hj0 hj
            rw [hpj] at le3
            exact hcU.trans_le _ _ _ le2 le3
        · refine ⟨?_, ?_, ?_, ?_⟩
          · intro j hj hjne
            exact u6.1 j hj
          · intro e' hall he'
            refine u6.2 e' ?_
            intro j hj
            by_cases hjx : j = ix
            · rw [hjx]
              exact fun hcontra => he' hcontra.symm
            · exact hall j hj hjx
          · intro j l hj hl hjl _ _
            exact u7 j l hj hl hjl
          · intro j hj hjx
            exact u7 j ix hj (by rw [hnU]; exact hix) hjx
        · refine u8.trans ?_
          rw [hH1pelts]
      · -- the upward sift does not move: it rewrites slot ix in place
        have hgo : heapify_up_go (ix + 1) H1 (pair_at H1 ix) ix = (H1, ix) := by
          rw [heapify_up_go]
          by_cases hix0 : 0 < ix
          · rw [if_pos hix0, if_neg ?_]
            have hpne : parent ix ≠ ix := Nat.ne_of_lt (parent_lt hix0)
            show ¬ 0 < H1.cmp_pty (pty_at H1 (parent ix)) (pair_at H1 ix).1
            rw [hH1cmp, hpty1, if_neg hpne, hbuf1]
            intro hgt
            exact hmove ⟨hix0, hgt⟩
          · rw [if_neg hix0]
        have hHU : heapify_up H1 ix = finish H1 (pair_at H1 ix) ix := by
          have hdef : heapify_up H1 ix = finish
              (heapify_up_go (ix + 1) H1 (pair_at H1 ix) ix).1 (pair_at H1 ix)
              (heapify_up_go (ix + 1) H1 (pair_at H1 ix) ix).2 := rfl
          rw [hdef, hgo]
        have hUpelts : (heapify_up H1 ix).pty_elts = H1.pty_elts := by
          rw [hHU]
          show H1.pty_elts.set ix (pair_at H1 ix) = H1.pty_elts
          refine set_getD_self ?_
          have hlt : ix < num_elts H1 := by rw [hH1n]; exact hix
          exact hlt
        have hUht : (heapify_up H1 ix).ht = ht_insert h.ht e ix := by
          rw [hHU]
          show ht_insert H1.ht (pair_at H1 ix).2 ix = _
          rw [hbuf1, hH1ht]
        have hnU : num_elts (heapify_up H1 ix) = num_elts h := by
          show (heapify_up H1 ix).pty_elts.length = _
          rw [hUpelts]
          exact hH1n
        have hUcmp : (heapify_up H1 ix).cmp_pty = h.cmp_pty := by
          rw [hHU, cmp_finish, hH1cmp]
        have hUpair : ∀ j, pair_at (heapify_up H1 ix) j = pair_at H1 j := by
          intro j
          show (heapify_up H1 ix).pty_elts.getD j default = _
          rw [hUpelts]
          rfl
        have hUpty : ∀ j, pty_at (heapify_up H1 ix) j =
            if j = ix then p else pty_at h j := by
          intro j
          show (pair_at (heapify_up H1 ix) j).1 = _
          rw [hUpair]
          exact hpty1 j
        have hUelt : ∀ j, elt_at (heapify_up H1 ix) j =
            if j = ix then e else elt_at h j := by
          intro j
          show (pair_at (heapify_up H1 ix) j).2 = _
          rw [hUpair]
          exact helt1 j
        have hUbuf : pair_at (heapify_up H1 ix) ix = (p, e) := by
          rw [hUpair]
          exact hbuf1
        have hnomove : 0 < ix → h.cmp_pty (pty_at h (parent ix)) p ≤ 0 := by
          intro hix0
          by_cases hgt : 0 < h.cmp_pty (pty_at h (parent ix)) p
          · exact absurd ⟨hix0, hgt⟩ hmove
          · omega
        refine ⟨hnU, hUcmp, by rw [hHU, count_finish],
          by rw [hHU, count_max_finish], ?_, ?_, ?_⟩
        · refine ⟨by rw [hnU]; exact hix, ?_, ?_, ?_⟩
          · intro j hj0 hj hpj
            rw [hnU] at hj
            rw [hUcmp, hUpty, hUpty]
            by_cases hjx : j = ix
            · have hix0 : 0 < ix := by omega
              have hpne : parent j ≠ ix := by rw [hjx] at hpj ⊢; exact hpj
              rw [if_pos hjx, if_neg hpne, hjx]
              exact hnomove hix0
            · rw [if_neg hjx]
              by_cases hpjx : parent j = ix
              · exact absurd hpjx hpj
              · rw [if_neg hpjx]
                exact hord j hj0 hj
          · intro hix0
            have hpne : parent ix ≠ ix := Nat.ne_of_lt (parent_lt hix0)
            rw [hUcmp, hUpty, if_neg hpne, hUbuf]
            exact hnomove hix0
          · intro j hj0 hj hpj hix0
            rw [hnU] at hj
            have hjne : j ≠ ix := by
              intro he'
              rw [he'] at hpj
              have := parent_lt hj0
              rw [he'] at this
              omega
            have hpne : parent ix ≠ ix := Nat.ne_of_lt (parent_lt hix0)
            rw [hUcmp, hUpty, hUpty, if_neg hjne, if_neg hpne]
            have le2 : h.cmp_pty (pty_at h (parent ix)) (pty_at h ix) ≤ 0 :=
              hord ix hix0 hix
            have le3 : h.cmp_pty (pty_at h ix) (pty_at h j) ≤ 0 := by
              have := hord j hj0 hj
              rw [hpj] at this
              exact this
            exact hc.trans_le _ _ _ le2 le3
        · rw [hUbuf]
          refine ⟨?_, ?_, ?_, ?_⟩
          · intro j hj hjne
            rw [hnU] at hj
            rw [hUelt, if_neg hjne, hUht]
            have hne' : elt_at h j ≠ e := by
              rw [← hke]
              exact hnod j ix hj hix hjne
            rw [ht_insert_ne _ _ hne']
            exact hidx.1 j hj
          · intro e' hall he'
            rw [hUht, ht_insert_ne _ _ he']
            refine hidx.2 e' ?_
            intro j hj
            by_cases hjx : j = ix
            · rw [hjx, hke]
              exact fun hcontra => he' hcontra.symm
            · have := hall j (by rw [hnU]; exact hj) hjx
              rw [hUelt, if_neg hjx] at this
              exact this
          · intro j l hj hl hjl hjx hlx
            rw [hnU] at hj hl
            rw [hUelt, hUelt, if_neg hjx, if_neg hlx]
            exact hnod j l hj hl hjl
          · intro j hj hjx
            rw [hnU] at hj
            rw [hUelt, if_neg hjx]
            show elt_at h j ≠ e
            rw [← hke]
            exact hnod j ix hj hix hjx
        · rw [hUpelts, hH1pelts]
    obtain ⟨w1, w2, w3, w4, w5, w6, w7⟩ := hcommon
    have hcU : IsTotalCmp (heapify_up H1 ix).cmp_pty := by
      rw [w2]
      exact hc
    obtain ⟨d1, d2, d3, d4, d5, d6, d7, d8⟩ := heapify_down_spec hcU w5 w6
    rw [hres] at d1 d2 d3 d4 d5 d6 d7 d8
    refine ⟨ix, hix, hke, rfl, ⟨d5, d6, d7, ?_⟩, ?_, ?_, ?_, ?_, ?_⟩
    · refine ⟨?_, ?_, ?_⟩
      · rw [d2, w3]
        exact hcap.1
      · rw [d2, w3, d4, w1]
        exact hcap.2.1
      · rw [d2, w3, d1, w4]
        exact hcap.2.2
    · rw [d3, w2]
    · rw [d1, w4]
    · rw [d2, w3]
    · rw [d4, w1]
    · exact d8.trans w7

/-- Empty pop is the identity: on `num_elts == 0`, `heap_pop` returns
without touching the heap or the caller's output buffers. -/
theorem heap_pop_empty {h : heap_t P E} (h0 : num_elts h = 0) (pty0 : P)
    (elt0 : E) : heap_pop h pty0 elt0 = (h, pty0, elt0) := by
  unfold heap_pop
  rw [if_pos h0]

/-- The states reachable from `heap_init` by `heap_push` (on a fresh
element, per INV-3), `heap_pop` and `heap_update` (on a present element,
which is what a successful hash-table lookup means), each respecting its
documented preconditions. -/
inductive Reachable (cmp : P → P → Int) : heap_t P E → Prop where
  | init (count_max min_num : Nat) (h0 : 0 < min_num) (h1 : min_num ≤ count_max) :
      Reachable cmp (heap_init count_max min_num cmp)
  | push {h h' : heap_t P E} (p : P) (e : E) (hr : Reachable cmp h)
      (hfresh : ∀ i, i < num_elts h → elt_at h i ≠ e)
      (hp : heap_push h p e = some h') : Reachable cmp h'
  | pop {h : heap_t P E} (pty0 : P) (elt0 : E) (hr : Reachable cmp h) :
      Reachable cmp (heap_pop h pty0 elt0).1
  | update {h h' : heap_t P E} (p : P) (e : E) (hr : Reachable cmp h)
      (hu : heap_update h p e = some h') : Reachable cmp h'

/-- Master invariant: every reachable heap carries the installed comparison
and satisfies heap order, index consistency, element distinctness and the
capacity bounds. -/
theorem reachable_inv {cmp : P → P → Int} (hc : IsTotalCmp cmp) :
    ∀ {h : heap_t P E}, Reachable cmp h → h.cmp_pty = cmp ∧ Inv h := by
  intro h hr
  induction hr with
  | init cm mn h0 h1 =>
    refine ⟨rfl, ?_, ⟨?_, ?_⟩, ?_, ?_⟩
    · intro i hi0 hi
      simp [num_elts, heap_init] at hi
    · intro i hi
      simp [num_elts, heap_init] at hi
    · intro e _
      rfl
    · intro i j hi hj
      simp [num_elts, heap_init] at hi
    · exact ⟨h0, by simp [num_elts, heap_init], h1⟩
  | push p e hr hfresh hp ih =>
    have hc' : IsTotalCmp _ := ih.1 ▸ hc
    obtain ⟨s1, s2, s3, s4, s5⟩ := heap_push_spec hc' ih.2 hfresh hp
    exact ⟨by rw [s2, ih.1], s1⟩
  | pop pty0 elt0 hr ih =>
    rename_i hh
    by_cases hn : 0 < num_elts hh
    · have hc' : IsTotalCmp hh.cmp_pty := ih.1 ▸ hc
      obtain ⟨s1, s2, s3, s4, s5, s6, s7, s8⟩ := heap_pop_spec hc' ih.2 hn pty0 elt0
      exact ⟨by rw [s4, ih.1], s3⟩
    · rw [heap_pop_empty (by omega) pty0 elt0]
      exact ih
  | update p e hr hu ih =>
    have hc' : IsTotalCmp _ := ih.1 ▸ hc
    obtain ⟨ix, s0, s1, sht, s2, s3, s4, s5, s6, s7⟩ := heap_update_spec hc' ih.2 hu
    exact ⟨by rw [s3, ih.1], s2⟩

/-!  Unconditional pair-count preservation of the sift routines (they only
ever copy pairs between slots). -/

theorem num_elts_heapify_up_go (fuel : Nat) :
    ∀ (h : heap_t P E) (buf : P × E) (i : Nat),
      num_elts (heapify_up_go fuel h buf i).1 = num_elts h := by
  induction fuel with
  | zero => intro h buf i; rfl
  | succ fuel ih =>
    intro h buf i
    rw [heapify_up_go]
    by_cases hi : 0 < i
    · rw [if_pos hi]
      by_cases hgt : 0 < h.cmp_pty (pty_at h (parent i)) buf.1
      · rw [if_pos hgt, ih, num_elts_half_swap]
      · rw [if_neg hgt]
    · rw [if_neg hi]

theorem num_elts_heapify_up (h : heap_t P E) (i : Nat) :
    num_elts (heapify_up h i) = num_elts h := by
  show ((heapify_up_go (i + 1) h (pair_at h i) i).1.pty_elts.set _ _).length = _
  rw [List.length_set]
  exact num_elts_heapify_up_go (i + 1) h (pair_at h i) i

theorem num_elts_heapify_down_go (fuel : Nat) :
    ∀ (h : heap_t P E) (buf : P × E) (i : Nat),
      num_elts (heapify_down_go fuel h buf i).1 = num_elts h := by
  induction fuel with
  | zero => intro h buf i; rfl
  | succ fuel ih =>
    intro h buf i
    rw [heapify_down_go]
    by_cases hcond : i + 2 ≤ num_elts h - 1 - i
    · rw [if_pos hcond]
      by_cases hb1 : 0 < h.cmp_pty buf.1 (pty_at h (2 * i + 1)) ∧
          h.cmp_pty (pty_at h (2 * i + 1)) (pty_at h (2 * i + 2)) ≤ 0
      · rw [if_pos hb1, ih, num_elts_half_swap]
      · rw [if_neg hb1]
        by_cases hb2 : 0 < h.cmp_pty buf.1 (pty_at h (2 * i + 2))
        · rw [if_pos hb2, ih, num_elts_half_swap]
        · rw [if_neg hb2]
    · rw [if_neg hcond]

theorem num_elts_heapify_down (h : heap_t P E) (i : Nat) :
    num_elts (heapify_down h i) = num_elts h := by
  set r := heapify_down_go (num_elts h) h (pair_at h i) i with hrdef
  have hunf : heapify_down h i = finish
      (if r.2 + 1 = num_elts r.1 - 1 - r.2 then
        if 0 < r.1.cmp_pty (pair_at h i).1 (pty_at r.1 (2 * r.2 + 1)) then
          (half_swap r.1 r.2 (2 * r.2 + 1), 2 * r.2 + 1)
        else r
      else r).1 (pair_at h i)
      (if r.2 + 1 = num_elts r.1 - 1 - r.2 then
        if 0 < r.1.cmp_pty (pair_at h i).1 (pty_at r.1 (2 * r.2 + 1)) then
          (half_swap r.1 r.2 (2 * r.2 + 1), 2 * r.2 + 1)
        else r
      else r).2 := rfl
  rw [hunf, num_elts_finish]
  have hr1 : num_elts r.1 = num_elts h := by
    rw [hrdef]
    exact num_elts_heapify_down_go _ _ _ _
  by_cases htr : r.2 + 1 = num_elts r.1 - 1 - r.2
  · rw [if_pos htr]
    by_cases hgt : 0 < r.1.cmp_pty (pair_at h i).1 (pty_at r.1 (2 * r.2 + 1))
    · rw [if_pos hgt]
      show num_elts (half_swap r.1 r.2 (2 * r.2 + 1)) = num_elts h
      rw [num_elts_half_swap, hr1]
    · rw [if_neg hgt]
      exact hr1
  · rw [if_neg htr]
    exact hr1

/-- A successful push appends exactly one pair, with no invariant needed. -/
theorem num_elts_heap_push {h h' : heap_t P E} {p : P} {e : E}
    (hp : heap_push h p e = some h') : num_elts h' = num_elts h + 1 := by
  simp only [heap_push] at hp
  cases hg : (if h.count = num_elts h then heap_grow h else some h) with
  | none =>
    rw [hg] at hp
    exact Option.noConfusion hp
  | some h1 =>
    rw [hg] at hp
    have h1elts : h1.pty_elts = h.pty_elts := by
      by_cases hful : h.count = num_elts h
      · rw [if_pos hful, heap_grow_eq] at hg
        by_cases hcm : h.count = h.count_max
        · rw [if_pos hcm] at hg
          exact Option.noConfusion hg
        · rw [if_neg hcm] at hg
          have hx := Option.some.inj hg
          rw [← hx]
      · rw [if_neg hful] at hg
        have hx := Option.some.inj hg
        rw [← hx]
    have hh' := Option.some.inj hp
    rw [← hh', num_elts_heapify_up]
    show (h1.pty_elts ++ [(p, e)]).length = _
    rw [List.length_append, h1elts]
    rfl

/-- A successful update leaves the pair count unchanged, with no invariant
needed. -/
theorem num_elts_heap_update {h h' : heap_t P E} {p : P} {e : E}
    (hu : heap_update h p e = some h') : num_elts h' = num_elts h := by
  simp only [heap_update] at hu
  cases hht : h.ht e with
  | none =>
    rw [hht] at hu
    exact Option.noConfusion hu
  | some ix =>
    rw [hht] at hu
    have hh' := Option.some.inj hu
    rw [← hh', num_elts_heapify_down, num_elts_heapify_up]
    exact num_elts_set_pair h ix _

/-!  Round-trip machinery: a sequence of pushes followed by a sequence of
pops, and the stable reference sort (insertion sort by priority). -/

/-- Pushes the pairs of a list in order; `none` if any push hits the fatal
capacity-exhaustion condition. -/
def push_list (h : heap_t P E) : List (P × E) → Option (heap_t P E)
  | [] => some h
  | x :: t =>
    match heap_push h x.1 x.2 with
    | none => none
    | some h' => push_list h' t

/-- Pops `n` times, collecting the written output buffers (initialized to
`pty0`, `elt0`). -/
def pop_list (pty0 : P) (elt0 : E) : heap_t P E → Nat → List (P × E)
  | _, 0 => []
  | h, n + 1 =>
    ((heap_pop h pty0 elt0).2.1, (heap_pop h pty0 elt0).2.2) ::
      pop_list pty0 elt0 (heap_pop h pty0 elt0).1 n

/-- Comparison of pairs by priority under the caller's comparison. -/
def le_pair (cmp : P → P → Int) (a b : P × E) : Prop := cmp a.1 b.1 ≤ 0

instance le_pair_dec (cmp : P → P → Int) : DecidableRel (le_pair (E := E) cmp) :=
  fun a b => inferInstanceAs (Decidable (_ ≤ _))

/-- The stable reference sort of the specification: insertion sort of the
(priority, element) pairs by priority (Mathlib's `insertionSort` is
stable: it inserts each pair before the first later pair it compares
less-or-equal to, preserving the order of equal priorities). -/
def ref_sort (cmp : P → P → Int) (l : List (P × E)) : List (P × E) :=
  List.insertionSort (le_pair cmp) l

/-- Popping out a whole reachable heap yields a sorted permutation of its
pair array. -/
theorem pop_list_spec {cmp : P → P → Int} (hc : IsTotalCmp cmp) (pty0 : P)
    (elt0 : E) :
    ∀ (n : Nat) (h : heap_t P E), Reachable cmp h → num_elts h = n →
      (pop_list pty0 elt0 h n).Perm h.pty_elts ∧
      List.Sorted (le_pair cmp) (pop_list pty0 elt0 h n) := by
  intro n
  induction n with
  | zero =>
    intro h hr h0
    have : h.pty_elts = [] := List.length_eq_zero.mp h0
    rw [pop_list, this]
    exact ⟨List.Perm.refl _, List.sorted_nil⟩
  | succ n ih =>
    intro h hr hn
    have hpos : 0 < num_elts h := by omega
    obtain ⟨hcmp, hInv⟩ := reachable_inv hc hr
    have hc' : IsTotalCmp h.cmp_pty := hcmp ▸ hc
    obtain ⟨s1, s2, s3, s4, s5, s6, s7, s8⟩ := heap_pop_spec hc' hInv hpos pty0 elt0
    have hr' : Reachable cmp (heap_pop h pty0 elt0).1 := Reachable.pop pty0 elt0 hr
    have hn' : num_elts (heap_pop h pty0 elt0).1 = n := by omega
    obtain ⟨ihp, ihs⟩ := ih _ hr' hn'
    rw [pop_list]
    have hpair : ((heap_pop h pty0 elt0).2.1, (heap_pop h pty0 elt0).2.2) =
        pair_at h 0 := by
      rw [s1, s2]
      rfl
    constructor
    · rw [hpair]
      exact (List.Perm.cons _ ihp).trans s8
    · rw [List.sorted_cons]
      refine ⟨?_, ihs⟩
      intro b hb
      have hb1 : b ∈ (heap_pop h pty0 elt0).1.pty_elts := ihp.mem_iff.mp hb
      have hb2 : b ∈ h.pty_elts :=
        s8.mem_iff.mp (List.mem_cons_of_mem _ hb1)
      obtain ⟨k, hk, hbk⟩ := List.mem_iff_getElem.mp hb2
      have hroot := root_min hc' hInv.1 k hk
      have hkpty : pty_at h k = b.1 := by
        show (pair_at h k).1 = b.1
        have : pair_at h k = b := by
          show h.pty_elts.getD k default = b
          rw [List.getD_eq_getElem _ _ hk, hbk]
        rw [this]
      show cmp (heap_pop h pty0 elt0).2.1 b.1 ≤ 0
      rw [s1, ← hkpty, ← hcmp]
      exact hroot

/-- Two sorted permutations of each other with pairwise tie-free priorities
are equal. -/
theorem sorted_perm_eq {cmp : P → P → Int} (hc : IsTotalCmp cmp) :
    ∀ (l1 l2 : List (P × E)), l1.Perm l2 → List.Sorted (le_pair cmp) l1 →
      List.Sorted (le_pair cmp) l2 →
      l1.Pairwise (fun a b => cmp a.1 b.1 ≠ 0) → l1 = l2 := by
  intro l1
  induction l1 with
  | nil =>
    intro l2 hp _ _ _
    exact hp.nil_eq
  | cons a t1 ih =>
    intro l2 hp hs1 hs2 hpw
    cases l2 with
    | nil => exact absurd hp.symm (by intro hcon; exact List.cons_ne_nil a t1 hcon.nil_eq.symm)
    | cons b t2 =>
      have hab : a = b := by
        by_cases hab' : a = b
        · exact hab'
        · exfalso
          have ha2 : a ∈ b :: t2 := hp.mem_iff.mp (List.mem_cons_self a t1)
          have hb1 : b ∈ a :: t1 := hp.mem_iff.mpr (List.mem_cons_self b t2)
          have hat2 : a ∈ t2 := by
            cases ha2 with
            | head => exact absurd rfl hab'
            | tail _ hmem => exact hmem
          have hbt1 : b ∈ t1 := by
            cases hb1 with
            | head => exact absurd rfl (fun he => hab' he.symm)
            | tail _ hmem => exact hmem
          have h1 : cmp a.1 b.1 ≤ 0 := (List.sorted_cons.mp hs1).1 b hbt1
          have h2 : cmp b.1 a.1 ≤ 0 := (List.sorted_cons.mp hs2).1 a hat2
          have hne := (List.pairwise_cons.mp hpw).1 b hbt1
          exact hne (hc.eq_zero_of_le_le h1 h2)
      subst hab
      have hpt : t1.Perm t2 := (List.perm_cons a).mp hp
      have hrec := ih t2 hpt (List.sorted_cons.mp hs1).2 (List.sorted_cons.mp hs2).2
        (List.pairwise_cons.mp hpw).2
      rw [hrec]

/-- Pushing a list of pairs with globally fresh, pairwise distinct elements
into a reachable heap with enough spare `count_max` always succeeds and
yields a reachable heap whose array is a permutation of the old array with
all new pairs appended. -/
theorem push_list_spec {cmp : P → P → Int} (hc : IsTotalCmp cmp) :
    ∀ (l : List (P × E)) (h : heap_t P E), Reachable cmp h →
      num_elts h + l.length ≤ h.count_max →
      (∀ x, x ∈ l → ∀ i, i < num_elts h → elt_at h i ≠ x.2) →
      l.Pairwise (fun x y => x.2 ≠ y.2) →
      ∃ hh, push_list h l = some hh ∧ Reachable cmp hh ∧
        hh.pty_elts.Perm (h.pty_elts ++ l) ∧
        num_elts hh = num_elts h + l.length := by
  intro l
  induction l with
  | nil =>
    intro h hr _ _ _
    exact ⟨h, rfl, hr, by simp, by simp⟩
  | cons x t ih =>
    intro h hr hcap hfresh hnd
    obtain ⟨hcmp, hInv⟩ := reachable_inv hc hr
    have hc' : IsTotalCmp h.cmp_pty := hcmp ▸ hc
    have hsucc : ∃ h1, heap_push h x.1 x.2 = some h1 := by
      simp only [heap_push]
      cases hg : (if h.count = num_elts h then heap_grow h else some h) with
      | none =>
        exfalso
        by_cases hful : h.count = num_elts h
        · rw [if_pos hful, heap_grow_eq] at hg
          by_cases hcm : h.count = h.count_max
          · have hlen := List.length_cons x t
            have := hInv.2.2.2.2.2
            simp only [List.length_cons] at hcap
            omega
          · rw [if_neg hcm] at hg
            exact Option.noConfusion hg
        · rw [if_neg hful] at hg
          exact Option.noConfusion hg
      | some h1 => exact ⟨_, rfl⟩
    obtain ⟨h1, hp⟩ := hsucc
    have hfr : ∀ i, i < num_elts h → elt_at h i ≠ x.2 :=
      fun i hi => hfresh x (List.mem_cons_self x t) i hi
    have hr1 : Reachable cmp h1 := Reachable.push x.1 x.2 hr hfr hp
    obtain ⟨s1, s2, s3, s4, s5⟩ := heap_push_spec hc' hInv hfr hp
    have hfresh1 : ∀ y, y ∈ t → ∀ i, i < num_elts h1 → elt_at h1 i ≠ y.2 := by
      intro y hy i hi hcontra
      have hmem : pair_at h1 i ∈ h1.pty_elts := by
        show h1.pty_elts.getD i default ∈ h1.pty_elts
        rw [List.getD_eq_getElem _ _ hi]
        exact List.getElem_mem _
      have hmem2 : pair_at h1 i ∈ h.pty_elts ++ [x] := s5.mem_iff.mp hmem
      rcases List.mem_append.mp hmem2 with hold | hnew
      · obtain ⟨k, hk, hbk⟩ := List.mem_iff_getElem.mp hold
        have helt : elt_at h k = y.2 := by
          show (pair_at h k).2 = y.2
          have hkk : pair_at h k = pair_at h1 i := by
            show h.pty_elts.getD k default = _
            rw [List.getD_eq_getElem _ _ hk, hbk]
          rw [hkk]
          exact hcontra
        exact hfresh y (List.mem_cons_of_mem x hy) k hk helt
      · have hx : pair_at h1 i = x := by simpa using hnew
        have : x.2 ≠ y.2 := (List.pairwise_cons.mp hnd).1 y hy
        exact this (by rw [← hx]; exact hcontra)
    have hcap1 : num_elts h1 + t.length ≤ h1.count_max := by
      rw [s4, s3]
      simp only [List.length_cons] at hcap
      omega
    have hnd1 : t.Pairwise (fun x y => x.2 ≠ y.2) := (List.pairwise_cons.mp hnd).2
    obtain ⟨hh, hpl, hrr, hperm, hlen⟩ := ih h1 hr1 hcap1 hfresh1 hnd1
    refine ⟨hh, ?_, hrr, ?_, ?_⟩
    · rw [push_list, hp]
      exact hpl
    · refine hperm.trans ?_
      have happ : (h1.pty_elts ++ t).Perm ((h.pty_elts ++ [x]) ++ t) :=
        s5.append_right t
      refine happ.trans ?_
      rw [List.append_assoc]
      exact List.Perm.refl _
    · rw [hlen, s4]
      simp only [List.length_cons]
      omega

/-- Round trip with pairwise-distinct elements and pairwise tie-free
priorities: the sequence of pops equals the stable reference sort of the
pushed list. -/
theorem round_trip_sorted {cmp : P → P → Int} (hc : IsTotalCmp cmp)
    (l : List (P × E)) (count_max min_num : Nat)
    (h0 : 0 < min_num) (h1 : min_num ≤ count_max) (hcap : l.length ≤ count_max)
    (hel : l.Pairwise (fun x y => x.2 ≠ y.2))
    (hpr : l.Pairwise (fun x y => cmp x.1 y.1 ≠ 0)) (pty0 : P) (elt0 : E) :
    (push_list (heap_init count_max min_num cmp : heap_t P E) l).isSome = true ∧
    ∀ hh, push_list (heap_init count_max min_num cmp : heap_t P E) l = some hh →
      pop_list pty0 elt0 hh l.length = ref_sort cmp l := by
  have hr0 : Reachable cmp (heap_init count_max min_num cmp : heap_t P E) :=
    Reachable.init count_max min_num h0 h1
  have hn0 : num_elts (heap_init count_max min_num cmp : heap_t P E) = 0 := rfl
  obtain ⟨hh, hpl, hrr, hperm, hlen⟩ := push_list_spec hc l _ hr0
    (by rw [hn0]; show 0 + l.length ≤ count_max; omega)
    (fun x _ i hi => by rw [hn0] at hi; omega) hel
  have hperm' : hh.pty_elts.Perm l := by
    refine hperm.trans ?_
    show (([] : List (P × E)) ++ l).Perm l
    rw [List.nil_append]
  constructor
  · rw [hpl]; rfl
  · intro hh' hpl'
    have hhh : hh' = hh := by
      rw [hpl] at hpl'
      exact (Option.some.inj hpl').symm
    subst hhh
    obtain ⟨hpp, hps⟩ := pop_list_spec hc pty0 elt0 l.length hh' hrr (by omega)
    haveI htot : IsTotal (P × E) (le_pair cmp) := by
      constructor
      intro a b
      by_cases hab : cmp a.1 b.1 ≤ 0
      · exact Or.inl hab
      · refine Or.inr (hc.le_of_gt ?_)
        omega
    haveI htrans : IsTrans (P × E) (le_pair cmp) := by
      constructor
      intro a b c hab hbc
      exact hc.trans_le _ _ _ hab hbc
    have hsortedref : List.Sorted (le_pair cmp) (ref_sort cmp l) :=
      List.sorted_insertionSort (le_pair cmp) l
    have hpermref : (ref_sort cmp l).Perm l := List.perm_insertionSort (le_pair cmp) l
    have hsym : ∀ {x y : P × E}, cmp x.1 y.1 ≠ 0 → cmp y.1 x.1 ≠ 0 := by
      intro x y hxy hz
      have hs := hc.sign x.1 y.1
      have hs2 := hc.sign y.1 x.1
      omega
    have hpwpop : (pop_list pty0 elt0 hh' l.length).Pairwise
        (fun a b => cmp a.1 b.1 ≠ 0) := by
      have hperm2 : l.Perm (pop_list pty0 elt0 hh' l.length) :=
        (hpp.trans hperm').symm
      exact (List.Perm.pairwise_iff hsym hperm2).mp hpr
    refine sorted_perm_eq hc _ _ ?_ hps hsortedref hpwpop
    exact (hpp.trans hperm').trans hpermref.symm

/-!  A second downward-sift definition following the specification's words,
for the child-selection refinement claim. -/

/-- Modelled from the spec (section 4.1, Heapify-Down): at each step, when
both children exist, select the child with smaller priority preferring the
left child on ties, half-swap it into the hole only when its priority is
strictly smaller than the buffered pair's, and continue there; when only a
left child exists compare against it alone; stop when no child is smaller
or no children remain. -/
def spec_heapify_down_go (fuel : Nat) (h : heap_t P E) (buf : P × E) (i : Nat) :
    heap_t P E × Nat :=
  match fuel with
  | 0 => (h, i)
  | fuel + 1 =>
    if 2 * i + 2 < num_elts h then
      let jc := if h.cmp_pty (pty_at h (2 * i + 1)) (pty_at h (2 * i + 2)) ≤ 0
        then 2 * i + 1 else 2 * i + 2
      if 0 < h.cmp_pty buf.1 (pty_at h jc) then
        spec_heapify_down_go fuel (half_swap h i jc) buf jc
      else (h, i)
    else if 2 * i + 1 < num_elts h then
      if 0 < h.cmp_pty buf.1 (pty_at h (2 * i + 1)) then
        spec_heapify_down_go fuel (half_swap h i (2 * i + 1)) buf (2 * i + 1)
      else (h, i)
    else (h, i)

/-- Modelled from the spec: the full downward sift — buffer the pair at `i`,
walk down by the selection rule above, write the buffered pair once at the
final slot with a single index remap. -/
def spec_heapify_down (h : heap_t P E) (i : Nat) : heap_t P E :=
  let buf := pair_at h i
  let r := spec_heapify_down_go (num_elts h) h buf i
  finish r.1 buf r.2

/-- When the hole has no live children, the spec-worded walk stops at once,
whatever the fuel. -/
theorem spec_heapify_down_go_leaf {fuel : Nat} {h : heap_t P E} {buf : P × E}
    {i : Nat} (hl : ¬ 2 * i + 1 < num_elts h) :
    spec_heapify_down_go fuel h buf i = (h, i) := by
  cases fuel with
  | zero => rfl
  | succ fuel =>
    rw [spec_heapify_down_go]
    rw [if_neg (by omega), if_neg hl]

/-- The spec-worded walk computes the C loop followed by the C code's
trailing left-only-child step. -/
theorem spec_heapify_down_go_agrees (fuel : Nat) :
    ∀ (h : heap_t P E) (buf : P × E) (i : Nat),
      IsTotalCmp h.cmp_pty → num_elts h ≤ fuel + i →
      spec_heapify_down_go fuel h buf i =
        (if (heapify_down_go fuel h buf i).2 + 1 =
            num_elts (heapify_down_go fuel h buf i).1 - 1 -
              (heapify_down_go fuel h buf i).2 then
          if 0 < (heapify_down_go fuel h buf i).1.cmp_pty buf.1
              (pty_at (heapify_down_go fuel h buf i).1
                (2 * (heapify_down_go fuel h buf i).2 + 1)) then
            (half_swap (heapify_down_go fuel h buf i).1
              (heapify_down_go fuel h buf i).2
              (2 * (heapify_down_go fuel h buf i).2 + 1),
              2 * (heapify_down_go fuel h buf i).2 + 1)
          else heapify_down_go fuel h buf i
        else heapify_down_go fuel h buf i) := by
  induction fuel with
  | zero =>
    intro h buf i hc hfuel
    simp only [spec_heapify_down_go, heapify_down_go]
    have hcond : ¬ (i + 1 = num_elts h - 1 - i) := by omega
    rw [if_neg hcond]
  | succ fuel ih =>
    intro h buf i hc hfuel
    simp only [spec_heapify_down_go, heapify_down_go]
    by_cases hcond : i + 2 ≤ num_elts h - 1 - i
    · have hboth : 2 * i + 2 < num_elts h := by omega
      rw [if_pos hboth, if_pos hcond]
      by_cases hlr : h.cmp_pty (pty_at h (2 * i + 1)) (pty_at h (2 * i + 2)) ≤ 0
      · rw [if_pos hlr]
        by_cases hb : 0 < h.cmp_pty buf.1 (pty_at h (2 * i + 1))
        · have hb1 : 0 < h.cmp_pty buf.1 (pty_at h (2 * i + 1)) ∧
              h.cmp_pty (pty_at h (2 * i + 1)) (pty_at h (2 * i + 2)) ≤ 0 :=
            ⟨hb, hlr⟩
          rw [if_pos hb, if_pos hb1]
          have hc1 : IsTotalCmp (half_swap h i (2 * i + 1)).cmp_pty := by
            rw [cmp_half_swap]
            exact hc
          have hinv1 : num_elts (half_swap h i (2 * i + 1)) ≤ fuel + (2 * i + 1) := by
            rw [num_elts_half_swap]
            omega
          exact ih _ buf _ hc1 hinv1
        · have hnb1 : ¬ (0 < h.cmp_pty buf.1 (pty_at h (2 * i + 1)) ∧
              h.cmp_pty (pty_at h (2 * i + 1)) (pty_at h (2 * i + 2)) ≤ 0) :=
            fun hx => hb hx.1
          have hbr : ¬ 0 < h.cmp_pty buf.1 (pty_at h (2 * i + 2)) := by
            intro hbr
            have := hc.trans_le _ _ _ (hc.le_of_not_gt hb) hlr
            omega
          rw [if_neg hb, if_neg hnb1, if_neg hbr]
          have hcond2 : ¬ ((h, i).2 + 1 = num_elts (h, i).1 - 1 - (h, i).2) := by
            show ¬ (i + 1 = num_elts h - 1 - i)
            omega
          rw [if_neg hcond2]
      · rw [if_neg hlr]
        by_cases hb : 0 < h.cmp_pty buf.1 (pty_at h (2 * i + 2))
        · have hnb1 : ¬ (0 < h.cmp_pty buf.1 (pty_at h (2 * i + 1)) ∧
              h.cmp_pty (pty_at h (2 * i + 1)) (pty_at h (2 * i + 2)) ≤ 0) :=
            fun hx => hlr hx.2
          rw [if_pos hb, if_neg hnb1, if_pos hb]
          have hc1 : IsTotalCmp (half_swap h i (2 * i + 2)).cmp_pty := by
            rw [cmp_half_swap]
            exact hc
          have hinv1 : num_elts (half_swap h i (2 * i + 2)) ≤ fuel + (2 * i + 2) := by
            rw [num_elts_half_swap]
            omega
          exact ih _ buf _ hc1 hinv1
        · have hbl : ¬ 0 < h.cmp_pty buf.1 (pty_at h (2 * i + 1)) := by
            intro hbl
            have hrl : h.cmp_pty (pty_at h (2 * i + 2)) (pty_at h (2 * i + 1)) ≤ 0 :=
              hc.le_of_gt (by omega)
            have := hc.trans_le _ _ _ (hc.le_of_not_gt hb) hrl
            omega
          have hnb1 : ¬ (0 < h.cmp_pty buf.1 (pty_at h (2 * i + 1)) ∧
              h.cmp_pty (pty_at h (2 * i + 1)) (pty_at h (2 * i + 2)) ≤ 0) :=
            fun hx => hbl hx.1
          rw [if_neg hnb1, if_neg hb, if_neg hb]
          have hcond2 : ¬ ((h, i).2 + 1 = num_elts (h, i).1 - 1 - (h, i).2) := by
            show ¬ (i + 1 = num_elts h - 1 - i)
            omega
          rw [if_neg hcond2]
    · have hnboth : ¬ 2 * i + 2 < num_elts h := by omega
      rw [if_neg hcond, if_neg hnboth]
      by_cases htr : i + 1 = num_elts h - 1 - i
      · have hleft : 2 * i + 1 < num_elts h := by omega
        rw [if_pos hleft]
        have hcond2 : (h, i).2 + 1 = num_elts (h, i).1 - 1 - (h, i).2 := by
          show i + 1 = num_elts h - 1 - i
          exact htr
        rw [if_pos hcond2]
        by_cases hb : 0 < h.cmp_pty buf.1 (pty_at h (2 * i + 1))
        · have hb' : 0 < (h, i).1.cmp_pty buf.1
              (pty_at (h, i).1 (2 * (h, i).2 + 1)) := hb
          rw [if_pos hb, if_pos hb']
          refine spec_heapify_down_go_leaf ?_
          rw [num_elts_half_swap]
          omega
        · have hb' : ¬ 0 < (h, i).1.cmp_pty buf.1
              (pty_at (h, i).1 (2 * (h, i).2 + 1)) := hb
          rw [if_neg hb, if_neg hb']
      · have hleft : ¬ 2 * i + 1 < num_elts h := by omega
        rw [if_neg hleft]
        have hcond2 : ¬ ((h, i).2 + 1 = num_elts (h, i).1 - 1 - (h, i).2) := by
          show ¬ (i + 1 = num_elts h - 1 - i)
          exact htr
        rw [if_neg hcond2]

/-- The C `heapify_down` and the spec-worded downward sift agree on every
heap whose comparison satisfies the documented contract. -/
theorem heapify_down_agrees {h : heap_t P E} (i : Nat)
    (hc : IsTotalCmp h.cmp_pty) : heapify_down h i = spec_heapify_down h i := by
  have hag := spec_heapify_down_go_agrees (num_elts h) h (pair_at h i) i hc
    (by omega)
  show finish _ (pair_at h i) _ = finish _ (pair_at h i) _
  rw [hag]

/-!  Byte-layout arithmetic of `heap_init` and `elt_ptr`.  The sizes are
`size_t` values; `add_sz_perror` is checked addition that aborts on
overflow, so the Nat model below is exact on every non-aborting run. -/

/-- The element offset `h->elt_offset` computed by `heap_init`: `elt_size`
when `pty_size <= elt_size`, else `pty_size` rounded up to a multiple of
`elt_size` (the C writes `(elt_rem > 0) * (elt_size - elt_rem)`). -/
def elt_offset (pty_size elt_size : Nat) : Nat :=
  if pty_size ≤ elt_size then elt_size
  else pty_size +
    (if 0 < pty_size % elt_size then elt_size - pty_size % elt_size else 0)

/-- The pair stride `h->pair_size` computed by `heap_init`:
`elt_offset + elt_size` rounded up to a multiple of `pty_size`. -/
def pair_size (pty_size elt_size : Nat) : Nat :=
  elt_offset pty_size elt_size + elt_size +
    (if 0 < (elt_offset pty_size elt_size + elt_size) % pty_size
     then pty_size - (elt_offset pty_size elt_size + elt_size) % pty_size
     else 0)

/-- The byte offset within a pair at which `elt_ptr` — used by every read
and write of an element in `heap_push`, `heap_pop`, `heap_update`, the
sift routines and `swap` — actually addresses the element:
`pty_elts + i * pair_size + pty_size`, i.e. fixed offset `pty_size`,
not the computed `elt_offset`. -/
def elt_ptr_offset (pty_size : Nat) : Nat := pty_size

theorem roundup_mod (X p : Nat) (hp : 0 < p) :
    (X + (if 0 < X % p then p - X % p else 0)) % p = 0 := by
  by_cases h0 : 0 < X % p
  · rw [if_pos h0]
    have hd := Nat.div_add_mod X p
    have hlt : X % p < p := Nat.mod_lt _ hp
    have hmul : p * (X / p + 1) = p * (X / p) + p := by ring
    have hX : X + (p - X % p) = p * (X / p + 1) := by omega
    rw [hX, Nat.mul_mod_right]
  · rw [if_neg h0, Nat.add_zero]
    omega

/-- The pair stride is always a multiple of `pty_size`. -/
theorem pair_size_mod (pty_size elt_size : Nat) (hp : 0 < pty_size) :
    pair_size pty_size elt_size % pty_size = 0 := by
  unfold pair_size
  exact roundup_mod _ _ hp

theorem mem_set_iff_snd_ne {l : List (P × E)} {ix : Nat} {p q : P} {e e' : E}
    (hix : ix < l.length) (hsnd : (l.getD ix default).2 = e) (hne : e' ≠ e) :
    ((q, e') ∈ l.set ix (p, e)) ↔ (q, e') ∈ l := by
  constructor
  · intro hm
    obtain ⟨k, hk, hbk⟩ := List.mem_iff_getElem.mp hm
    by_cases hkx : k = ix
    · subst hkx
      rw [List.getElem_set_self hk] at hbk
      exact absurd (congrArg Prod.snd hbk).symm hne
    · rw [List.getElem_set_ne (fun he => hkx he.symm) hk] at hbk
      rw [← hbk]
      exact List.getElem_mem _
  · intro hm
    obtain ⟨k, hk, hbk⟩ := List.mem_iff_getElem.mp hm
    by_cases hkx : k = ix
    · subst hkx
      exfalso
      have hgd : (l.getD k default).2 = (q, e').2 := by
        rw [List.getD_eq_getElem _ _ hk, hbk]
      rw [hsnd] at hgd
      exact hne hgd.symm
    · have hk' : k < (l.set ix (p, e)).length := by
        rw [List.length_set]
        exact hk
      have : (l.set ix (p, e))[k] = (q, e') := by
        rw [List.getElem_set_ne (fun he => hkx he.symm) hk']
        exact hbk
      rw [← this]
      exact List.getElem_mem _

/-!  The ten claims. -/

/-- C1.  Heap-order invariant: on every heap reachable from initialization
by any sequence of push, pop and update operations respecting their
documented preconditions, every non-root slot's priority is
greater-or-equal (under the caller-supplied comparison) to the priority at
its parent slot `(i-1)/2`. -/
theorem heap_order_invariant {cmp : P → P → Int} {h : heap_t P E}
    (hc : IsTotalCmp cmp) (hr : Reachable cmp h) :
    ∀ i, 0 < i → i < num_elts h →
      cmp (pty_at h (parent i)) (pty_at h i) ≤ 0 := by
  obtain ⟨hcmp, hInv⟩ := reachable_inv hc hr
  intro i hi0 hi
  have := hInv.1 i hi0 hi
  rw [hcmp] at this
  exact this

/-- C2.  Index-consistency invariant: on every reachable heap, the hash
table maps the element stored at each live slot `i` to exactly `i`, holds
no entry for any non-resident element, and consequently `heap_search` on a
resident element returns the priority pointer of that element's slot
(pointers are modeled by the slot whose priority is read). -/
theorem index_consistency_invariant {cmp : P → P → Int} {h : heap_t P E}
    (hc : IsTotalCmp cmp) (hr : Reachable cmp h) :
    (∀ i, i < num_elts h → h.ht (elt_at h i) = some i) ∧
    (∀ e : E, (∀ i, i < num_elts h → elt_at h i ≠ e) → h.ht e = none) ∧
    (∀ i, i < num_elts h → heap_search h (elt_at h i) = some (pty_at h i)) := by
  obtain ⟨hcmp, hInv⟩ := reachable_inv hc hr
  obtain ⟨hord, hidx, hnod, hcap⟩ := hInv
  refine ⟨hidx.1, hidx.2, ?_⟩
  intro i hi
  unfold heap_search
  rw [hidx.1 i hi]

/-- C3.  Pop returns the minimum: on a nonempty reachable heap, `heap_pop`
writes into the output buffers a pair whose priority compares
less-or-equal to every priority resident before the pop, and that root
pair is removed (the written pair consed on the remaining array permutes
the original array). -/
theorem pop_returns_min {cmp : P → P → Int} {h : heap_t P E}
    (hc : IsTotalCmp cmp) (hr : Reachable cmp h) (hpos : 0 < num_elts h)
    (pty0 : P) (elt0 : E) :
    (∀ k, k < num_elts h → cmp (heap_pop h pty0 elt0).2.1 (pty_at h k) ≤ 0) ∧
    (((heap_pop h pty0 elt0).2.1, (heap_pop h pty0 elt0).2.2) ::
      (heap_pop h pty0 elt0).1.pty_elts).Perm h.pty_elts := by
  obtain ⟨hcmp, hInv⟩ := reachable_inv hc hr
  have hc' : IsTotalCmp h.cmp_pty := hcmp ▸ hc
  obtain ⟨s1, s2, s3, s4, s5, s6, s7, s8⟩ := heap_pop_spec hc' hInv hpos pty0 elt0
  constructor
  · intro k hk
    rw [s1, ← hcmp]
    exact root_min hc' hInv.1 k hk
  · have hpair : ((heap_pop h pty0 elt0).2.1, (heap_pop h pty0 elt0).2.2) =
        pair_at h 0 := by
      rw [s1, s2]
      rfl
    rw [hpair]
    exact s8

/-- C5.  Growth policy: `heap_grow` is fatal exactly at
`count == count_max`; below it the capacity doubles, capped at exactly
`count_max` (the C guard `count_max - count < count` computes the
comparison `2 * count > count_max` without overflow, mirrored here by
truncated Nat subtraction); and a push at
`num_elts == count == count_max` reaches the fatal capacity-exhaustion
exit and inserts nothing (`none` models `fprintf_stderr_exit`). -/
theorem growth_policy (h : heap_t P E) :
    (h.count = h.count_max → heap_grow h = none) ∧
    (h.count < h.count_max →
      heap_grow h = some { h with count :=
        if 2 * h.count ≤ h.count_max then 2 * h.count else h.count_max }) ∧
    (num_elts h = h.count → h.count = h.count_max →
      ∀ (p : P) (e : E), heap_push h p e = none) := by
  refine ⟨?_, ?_, ?_⟩
  · intro hmax
    rw [heap_grow_eq, if_pos hmax]
  · intro hlt
    rw [heap_grow_eq, if_neg (by omega)]
  · intro hful hmax p e
    simp only [heap_push]
    rw [if_pos hful.symm, heap_grow_eq, if_pos hmax]

/-- C6.  Heapify-down child selection: the C downward sift equals the
walk described by the specification — with both children present the
smaller-priority child is selected, the left child preferred on priority
ties; a half swap happens only when the selected child's priority is
strictly smaller than the buffered pair's; a lone left child is compared
alone; the walk stops when no child is smaller or none remains, and the
buffered pair is then written once at the final slot. -/
theorem heapify_down_selects_min_child {h : heap_t P E} (i : Nat)
    (hc : IsTotalCmp h.cmp_pty) : heapify_down h i = spec_heapify_down h i := by
  exact heapify_down_agrees i hc

/-- C7.  Empty pop is a silent no-op: with `count == 0`, `heap_pop` leaves
the heap (pairs, hash table, capacities) and both caller output buffers
unchanged; the operation is total, so no error is signalled. -/
theorem empty_pop_noop {h : heap_t P E} (h0 : num_elts h = 0) (pty0 : P)
    (elt0 : E) : heap_pop h pty0 elt0 = (h, pty0, elt0) :=
  heap_pop_empty h0 pty0 elt0

/-- C9.  Count conservation: on every reachable heap, a successful push
increases `num_elts` by exactly one, a pop on a nonempty heap decreases it
by exactly one, and a successful update leaves it unchanged
(`heap_search` takes the heap as a read-only value and returns no heap, so
it cannot change the count by construction). -/
theorem count_conservation {cmp : P → P → Int} {h : heap_t P E}
    (hc : IsTotalCmp cmp) (hr : Reachable cmp h) :
    (∀ (p : P) (e : E) (h' : heap_t P E), heap_push h p e = some h' →
      num_elts h' = num_elts h + 1) ∧
    (0 < num_elts h → ∀ (pty0 : P) (elt0 : E),
      num_elts (heap_pop h pty0 elt0).1 = num_elts h - 1) ∧
    (∀ (p : P) (e : E) (h' : heap_t P E), heap_update h p e = some h' →
      num_elts h' = num_elts h) := by
  obtain ⟨hcmp, hInv⟩ := reachable_inv hc hr
  have hc' : IsTotalCmp h.cmp_pty := hcmp ▸ hc
  refine ⟨?_, ?_, ?_⟩
  · intro p e h' hp
    exact num_elts_heap_push hp
  · intro hpos pty0 elt0
    obtain ⟨s1, s2, s3, s4, s5, s6, s7, s8⟩ := heap_pop_spec hc' hInv hpos pty0 elt0
    exact s7
  · intro p e h' hu
    exact num_elts_heap_update hu

/-- C10.  Update frame property: a successful `heap_update` on a reachable
heap leaves the multiset of resident elements unchanged, keeps every other
element's pair intact, and associates exactly the new priority with the
updated element — only positions within the array may change (the array
becomes a permutation of the old array with only the element's slot
repriced); in particular the unconditional downward sift at the element's
pre-update slot never displaces or corrupts any pair. -/
theorem update_frame {cmp : P → P → Int} {h h' : heap_t P E} {p : P} {e : E}
    (hc : IsTotalCmp cmp) (hr : Reachable cmp h)
    (hu : heap_update h p e = some h') :
    ∀ ix, h.ht e = some ix →
      ix < num_elts h ∧ elt_at h ix = e ∧
      h'.pty_elts.Perm (h.pty_elts.set ix (p, e)) ∧
      (h'.pty_elts.map Prod.snd).Perm (h.pty_elts.map Prod.snd) ∧
      (p, e) ∈ h'.pty_elts ∧
      (∀ (q : P) (e' : E), e' ≠ e →
        ((q, e') ∈ h'.pty_elts ↔ (q, e') ∈ h.pty_elts)) := by
  obtain ⟨hcmp, hInv⟩ := reachable_inv hc hr
  have hc' : IsTotalCmp h.cmp_pty := hcmp ▸ hc
  obtain ⟨ix0, hix, hke, hht, hInv', u1, u2, u3, u4, hperm⟩ :=
    heap_update_spec hc' hInv hu
  intro ix' hix'
  have hixeq : ix' = ix0 := by
    rw [hht] at hix'
    exact (Option.some.inj hix').symm
  subst hixeq
  have hlen' : ix' < h.pty_elts.length := hix
  have hmapset : (h.pty_elts.set ix' (p, e)).map Prod.snd =
      h.pty_elts.map Prod.snd := by
    rw [List.map_set]
    have hget : (h.pty_elts.map Prod.snd).getD ix' default = e := by
      rw [List.getD_eq_getElem _ _ (by simpa using hlen'), List.getElem_map]
      show (h.pty_elts[ix']).2 = e
      have hpa : pair_at h ix' = h.pty_elts[ix'] := by
        show h.pty_elts.getD ix' default = _
        rw [List.getD_eq_getElem _ _ hlen']
      rw [← hpa]
      exact hke
    have hfin : (h.pty_elts.map Prod.snd).set ix' e = h.pty_elts.map Prod.snd := by
      rw [← hget]
      exact set_getD_self (by simpa using hlen')
    exact hfin
  refine ⟨hix, hke, hperm, ?_, ?_, ?_⟩
  · have := hperm.map Prod.snd
    rw [hmapset] at this
    exact this
  · refine hperm.mem_iff.mpr ?_
    have hlt : ix' < (h.pty_elts.set ix' (p, e)).length := by
      rw [List.length_set]
      exact hlen'
    have hmem := List.getElem_mem hlt
    rw [List.getElem_set_self hlt] at hmem
    exact hmem
  · intro q e' hne
    rw [hperm.mem_iff]
    exact mem_set_iff_snd_ne hlen' hke hne

/-- C4 (as stated, refuted below; amended form): pushing pairwise-distinct
elements whose priorities are additionally pairwise tie-free into a fresh
heap with sufficient `count_max` and popping them all yields exactly the
stable reference sort (insertion sort by priority) of the pushed list.
Without the tie-free amendment the claim is false: an array-based binary
heap does not pop equal priorities in insertion order (see the
counterexample). -/
theorem round_trip_stable_sort {cmp : P → P → Int} (hc : IsTotalCmp cmp)
    (l : List (P × E)) (count_max min_num : Nat)
    (h0 : 0 < min_num) (h1 : min_num ≤ count_max) (hcap : l.length ≤ count_max)
    (hel : l.Pairwise (fun x y => x.2 ≠ y.2))
    (hpr : l.Pairwise (fun x y => cmp x.1 y.1 ≠ 0)) (pty0 : P) (elt0 : E) :
    (push_list (heap_init count_max min_num cmp : heap_t P E) l).isSome = true ∧
    ∀ hh, push_list (heap_init count_max min_num cmp : heap_t P E) l = some hh →
      pop_list pty0 elt0 hh l.length = ref_sort cmp l :=
  round_trip_sorted hc l count_max min_num h0 h1 hcap hel hpr pty0 elt0

/-- C8 (as stated, refuted below; amended form): the pair stride computed
by `heap_init` is always a multiple of the priority size, and the byte
offset at which `elt_ptr` actually reads and writes the element is the
fixed offset `pty_size` — which is a multiple of the element size exactly
when `elt_size` divides `pty_size`, not in general (the computed
`elt_offset` is never used by `elt_ptr`). -/
theorem pair_layout_alignment (pty_size elt_size : Nat) (hp : 0 < pty_size)
    (he : 0 < elt_size) :
    pair_size pty_size elt_size % pty_size = 0 ∧
    elt_ptr_offset pty_size = pty_size ∧
    (elt_size ∣ pty_size → elt_ptr_offset pty_size % elt_size = 0) := by
  refine ⟨pair_size_mod pty_size elt_size hp, rfl, ?_⟩
  intro hdvd
  exact Nat.mod_eq_zero_of_dvd hdvd

/-!  Concrete instances used by the witnesses and counterexamples. -/

/-- Integer comparison by subtraction, a valid `cmp_pty` for `int`-like
priorities. -/
def intCmp (a b : Int) : Int := a - b

theorem intCmp_total : IsTotalCmp intCmp := by
  constructor
  · intro a b
    unfold intCmp
    omega
  · intro a b c
    unfold intCmp
    omega

def demo0 : heap_t Int Nat := heap_init 8 2 intCmp

def demo1 : heap_t Int Nat := (heap_push demo0 5 10).getD demo0

def demo2 : heap_t Int Nat := (heap_push demo1 3 11).getD demo1

def demo3 : heap_t Int Nat := (heap_push demo2 1 12).getD demo2

def demoU : heap_t Int Nat := (heap_update demo2 7 10).getD demo2

def demoF0 : heap_t Int Nat := heap_init 1 1 intCmp

def demoF : heap_t Int Nat := (heap_push demoF0 2 5).getD demoF0

def demoRT : heap_t Int Nat :=
  (push_list (heap_init 8 2 intCmp) [(5, 10), (3, 11), (8, 12)]).getD
    (heap_init 8 2 intCmp)

theorem demo0_reach : Reachable intCmp demo0 :=
  Reachable.init 8 2 (by omega) (by omega)

theorem demo1_reach : Reachable intCmp demo1 :=
  Reachable.push 5 10 demo0_reach (by decide) rfl

theorem demo2_reach : Reachable intCmp demo2 :=
  Reachable.push 3 11 demo1_reach (by decide) rfl

/-- Witness for C1 at a concrete two-push heap: the single non-root slot
respects heap order. -/
theorem heap_order_invariant_witness :
    intCmp (pty_at demo2 (parent 1)) (pty_at demo2 1) ≤ 0 :=
  heap_order_invariant intCmp_total demo2_reach 1 (by decide) (by decide)

/-- Witness for C2 at the same heap: both live slots are indexed exactly,
and search returns slot 1's priority for slot 1's element. -/
theorem index_consistency_witness :
    demo2.ht (elt_at demo2 0) = some 0 ∧
    heap_search demo2 (elt_at demo2 1) = some (pty_at demo2 1) :=
  ⟨(index_consistency_invariant intCmp_total demo2_reach).1 0 (by decide),
   (index_consistency_invariant intCmp_total demo2_reach).2.2 1 (by decide)⟩

/-- Witness for C3: the popped priority is at most the priority at slot 1,
and the popped pair consed on the remainder permutes the old array. -/
theorem pop_returns_min_witness :
    intCmp (heap_pop demo2 0 0).2.1 (pty_at demo2 1) ≤ 0 ∧
    (((heap_pop demo2 0 0).2.1, (heap_pop demo2 0 0).2.2) ::
      (heap_pop demo2 0 0).1.pty_elts).Perm demo2.pty_elts :=
  ⟨(pop_returns_min intCmp_total demo2_reach (by decide) 0 0).1 1 (by decide),
   (pop_returns_min intCmp_total demo2_reach (by decide) 0 0).2⟩

/-- Counterexample to C4 as stated: three pushes of distinct elements with
equal priorities succeed, yet popping three times yields the elements in
order 0, 2, 1 — not the stable reference order 0, 1, 2. -/
theorem round_trip_counterexample :
    (push_list (heap_init 8 4 intCmp : heap_t Int Nat)
      [(1, 0), (1, 1), (1, 2)]).isSome = true ∧
    pop_list 0 0 ((push_list (heap_init 8 4 intCmp : heap_t Int Nat)
        [(1, 0), (1, 1), (1, 2)]).getD (heap_init 8 4 intCmp)) 3 ≠
      ref_sort intCmp [(1, 0), (1, 1), (1, 2)] := by
  constructor
  · decide
  · decide

/-- Witness for the amended C4 with pairwise tie-free priorities. -/
theorem round_trip_witness :
    pop_list 0 0 demoRT 3 = ref_sort intCmp [(5, 10), (3, 11), (8, 12)] := by
  have h := (round_trip_stable_sort intCmp_total [(5, 10), (3, 11), (8, 12)] 8 2
    (by decide) (by decide) (by decide) (by decide) (by decide) 0 0).2 demoRT (by rfl)
  exact h

/-- Witness for C5: a grow at the hard bound is fatal, a grow below it
doubles (4 → 8 under bound 10), and a push on a full heap at the bound is
fatal. -/
theorem growth_policy_witness :
    heap_grow (heap_init 6 6 intCmp : heap_t Int Nat) = none ∧
    heap_grow (heap_init 10 4 intCmp : heap_t Int Nat) =
      some (heap_init 10 8 intCmp) ∧
    heap_push demoF 3 6 = none := by
  refine ⟨(growth_policy _).1 rfl, ?_, (growth_policy demoF).2.2 rfl rfl 3 6⟩
  have h := (growth_policy (heap_init 10 4 intCmp : heap_t Int Nat)).2.1 (by decide)
  exact h

/-- Witness for C6 at a concrete three-element heap. -/
theorem heapify_down_selects_witness :
    heapify_down demo3 0 = spec_heapify_down demo3 0 :=
  heapify_down_selects_min_child 0 intCmp_total

/-- Witness for C7: popping a freshly initialized (empty) heap returns the
untouched heap and output buffers. -/
theorem empty_pop_noop_witness :
    heap_pop (heap_init 4 2 intCmp : heap_t Int Nat) 9 7 =
      (heap_init 4 2 intCmp, 9, 7) :=
  empty_pop_noop (by rfl) 9 7

/-- Witness for C9 at concrete operations on the two-element heap. -/
theorem count_conservation_witness :
    num_elts demo3 = num_elts demo2 + 1 ∧
    num_elts (heap_pop demo2 0 0).1 = num_elts demo2 - 1 ∧
    num_elts demoU = num_elts demo2 :=
  ⟨(count_conservation intCmp_total demo2_reach).1 1 12 demo3 rfl,
   (count_conservation intCmp_total demo2_reach).2.1 (by decide) 0 0,
   (count_conservation intCmp_total demo2_reach).2.2 7 10 demoU rfl⟩

/-- Witness for C10: repricing element 10 to priority 7 permutes the array
with only slot 1 repriced and leaves the other resident pair in place. -/
theorem update_frame_witness :
    demoU.pty_elts.Perm (demo2.pty_elts.set 1 (7, 10)) ∧
    ((3, 11) ∈ demoU.pty_elts ↔ (3, 11) ∈ demo2.pty_elts) := by
  have h := update_frame intCmp_total demo2_reach
    (rfl : heap_update demo2 7 10 = some demoU) 1 (by decide)
  exact ⟨h.2.2.1, h.2.2.2.2.2 3 11 (by decide)⟩

/-- Counterexample to C8 as stated: with `pty_size = 4` and `elt_size = 8`
(for example an `int` priority and a `double` or 8-byte-pointer element),
`elt_ptr` addresses the element at byte offset 4 within each pair, which is
not a multiple of 8 — the layout claim fails at this instance. -/
theorem pair_layout_counterexample :
    ¬ (elt_ptr_offset 4 % 8 = 0 ∧ pair_size 4 8 % 4 = 0) := by
  decide

/-- Witness for the amended C8 at `pty_size = 8`, `elt_size = 4` (where the
element size does divide the priority size). -/
theorem pair_layout_witness :
    pair_size 8 4 % 8 = 0 ∧ elt_ptr_offset 8 = 8 ∧ elt_ptr_offset 8 % 4 = 0 := by
  have h := pair_layout_alignment 8 4 (by decide) (by decide)
  exact ⟨h.1, h.2.1, h.2.2 (by decide)⟩

end HeapC
